import Mathlib

/-!
Shallow embedding of the GLAD dependency-graph core (jpdup/glad).

The container tree is modelled as an arena: `St.containers` is a list of
`ContainerData` records and a container is identified by its index in that
list (the JS code identifies containers by object reference and a global
`nodeId` counter; arena indices play that role here, as the spec's design
notes themselves suggest).  Mutation of the object graph becomes explicit
state passing on `St`.

Sources embedded (from `src/`):
  * `lib/models/container.js` — Container: upsert, getByText, setAsLeaf,
    rollupIsCallingThisNode, rollupIsBeingCalledByThisNode,
    createContainerMappingBasedOnArray, getFlatListOfNodes,
    cumulateNodeInDataSet, the leaf registry.
  * `models/graph.js` (shipped in `src/unnamed`) — Graph: upsertEdge,
    isCircular, prepareEdges, getAllNodes, getAllNodesInEdges,
    getOrphanNodes, serialize; plus the historical variant with
    detectUpDependencies/assignLayers.
  * `lib/glad.js` — GLAD.runLayeringForDependencyAnalysis,
    GLAD.simulateRenderingToMarkUpDependencies, GLAD.matchesExcludePattern.
  * `lib/util/strings.js` (in `src/unnamed`) — stringIsEmpty,
    matchesExcludePattern (the copy whose `*` crosses `/`).

`models/edge.js`, `models/edges.js`, `models/layers.js` and
`render/renderBase.js` (`createLayers`) are not under `src/`; the
definitions standing in for them are modelled from the spec and say so in
their doc comments.

Layout geometry (`rect`, Rectangle) is carried by none of the claims and is
omitted from the container record.
-/

/-- One container of the tree (`lib/models/container.js` constructor):
`parent`, `name` (`_text`), `data` (user payload), `isLeaf`, `version`,
`sub` (children, insertion order), and the rolled-up `targetNodes` /
`sourceNodes` lists.  Ids are arena indices. -/
structure ContainerData where
  parent : Option Nat
  name : String
  data : String
  isLeaf : Bool
  version : Option String
  sub : List Nat
  targetNodes : List Nat
  sourceNodes : List Nat
deriving Repr, DecidableEq

/-- A directed edge between two containers with its classification flags
(the `Edge` record of the spec's data model; `models/edge.js` is not under
`src/`, its fields are those the graph code reads and writes). -/
structure EdgeRec where
  source : Nat
  target : Nat
  isCircular : Bool
  isUpDependency : Bool
deriving Repr, DecidableEq

/-- The whole mutable state: the container arena (the tree plus any
detached leaves), the process-wide leaf registry `leafNodes`
(payload string to container, insertion ordered like a JS `Map`), and the
graph's edge collection. -/
structure St where
  containers : List ContainerData
  leafNodes : List (String × Nat)
  edges : List EdgeRec
deriving Repr, DecidableEq

/-- Fresh container, `new Container(parent, name, version)`:
empty `data`, not a leaf, no children, no rolled-up edges. -/
def newContainer (parent : Option Nat) (name : String)
    (version : Option String := none) : ContainerData :=
  { parent := parent, name := name, data := "", isLeaf := false,
    version := version, sub := [], targetNodes := [], sourceNodes := [] }

/-- `new Graph()`: a root container (`new Container()`), empty registry and
empty edge collection. -/
def initSt : St :=
  { containers := [newContainer none ""], leafNodes := [], edges := [] }

/-- Replace the container at index `i` by `f` of it (no-op when out of
range) — the arena form of mutating one JS object. -/
def modifyC (st : St) (i : Nat) (f : ContainerData → ContainerData) : St :=
  match st.containers[i]? with
  | some c => { st with containers := st.containers.set i (f c) }
  | none => st

/-- The `sub` list of container `i` (empty when `i` is out of range). -/
def subOf (st : St) (i : Nat) : List Nat :=
  ((st.containers[i]?).map (·.sub)).getD []

/-- The `parent` of container `i`. -/
def parentOf (st : St) (i : Nat) : Option Nat :=
  ((st.containers[i]?).map (·.parent)).getD none

/-- The `isLeaf` flag of container `i`. -/
def isLeafOf (st : St) (i : Nat) : Bool :=
  ((st.containers[i]?).map (·.isLeaf)).getD false

/-- The `data` payload of container `i`. -/
def dataOf (st : St) (i : Nat) : String :=
  ((st.containers[i]?).map (·.data)).getD ""

/-- The `name` of container `i`. -/
def nameOf (st : St) (i : Nat) : String :=
  ((st.containers[i]?).map (·.name)).getD ""

/-- The rolled-up `targetNodes` list of container `i`. -/
def targetNodesOf (st : St) (i : Nat) : List Nat :=
  ((st.containers[i]?).map (·.targetNodes)).getD []

/-- The rolled-up `sourceNodes` list of container `i`. -/
def sourceNodesOf (st : St) (i : Nat) : List Nat :=
  ((st.containers[i]?).map (·.sourceNodes)).getD []

/-- `Container.getByText(text)`: first child of `cid` whose `name` equals
`text` (`this.sub.find(c => c.name === text)`). -/
def getByText (st : St) (cid : Nat) (text : String) : Option Nat :=
  (subOf st cid).find? (fun j =>
    match st.containers[j]? with
    | some c => c.name == text
    | none => false)

/-- `Container.upsert(text, version)`: return the existing child with that
name, otherwise create one (appended to the arena and to `sub`). -/
def upsert (st : St) (cid : Nat) (text : String)
    (version : Option String := none) : St × Nat :=
  match getByText st cid text with
  | some j => (st, j)
  | none =>
      let j := st.containers.length
      let st1 : St :=
        { st with containers := st.containers ++ [newContainer (some cid) text version] }
      (modifyC st1 cid (fun c => { c with sub := c.sub ++ [j] }), j)

/-- JS `Map.get` on the leaf registry (first entry with the key; `mapSet`
keeps keys unique, matching `Map` semantics). -/
def mapGet (m : List (String × Nat)) (k : String) : Option Nat :=
  (m.find? (fun e => e.1 == k)).map (·.2)

/-- JS `Map.set`: overwrite the entry in place, or append a new one. -/
def mapSet (m : List (String × Nat)) (k : String) (v : Nat) :
    List (String × Nat) :=
  if (m.find? (fun e => e.1 == k)).isSome then
    m.map (fun e => if e.1 == k then (k, v) else e)
  else m ++ [(k, v)]

/-- `Container.setAsLeaf(userData)`: mark `cid` as a leaf, store the
payload in `data`, and register `cid` under the payload in the process-wide
registry (`leafNodes.set(userData, this)` — an unconditional `Map.set`). -/
def setAsLeaf (st : St) (cid : Nat) (userData : String) : St :=
  let st1 := modifyC st cid (fun c => { c with isLeaf := true, data := userData })
  { st1 with leafNodes := mapSet st1.leafNodes userData cid }

/-- `Container.getLeafNodeByUserData(userData)`: registry lookup. -/
def getLeafNodeByUserData (st : St) (userData : String) : Option Nat :=
  mapGet st.leafNodes userData

/-- Model of Node's `path.dirname` for POSIX-style paths without trailing
separators (the only shape the repo feeds it): everything before the last
`/`, `"."` when there is no `/`, `"/"` when the slash is leading. -/
def dirname (s : String) : String :=
  match s.data.reverse.dropWhile (fun c => !(c == '/')) with
  | [] => "."
  | _ :: [] => "/"
  | _ :: rest => ⟨rest.reverse⟩

/-- `Container.createContainerMappingBasedOnArray(array, userData)`:
upsert one container per path segment under `cid`; the last segment becomes
a leaf carrying `userData`, intermediate containers get
`data = path.dirname(userData)`. -/
def createContainerMapping (st : St) (cid : Nat) :
    List String → String → St
  | [], _ => st
  | tok :: rest, userData =>
      let r := upsert st cid tok
      if rest.isEmpty then
        setAsLeaf r.1 r.2 userData
      else
        let st2 := modifyC r.1 r.2 (fun c => { c with data := dirname userData })
        createContainerMapping st2 r.2 rest userData

/-- `lib/util/strings.js stringIsEmpty`: null/undefined fall outside the
model; `text.trim() === ''` is rendered as "every character is
whitespace" (which also covers the `!text` empty-string case). -/
def stringIsEmpty (s : String) : Bool :=
  s.data.all (fun c => c.isWhitespace)

example : (upsert initSt 0 "A").2 = 1 := by decide
example : (upsert (upsert initSt 0 "A").1 0 "A").2 = 1 := by decide
example : dirname "A/B" = "A" := by decide
example : dirname "AB" = "." := by decide
example : stringIsEmpty "" = true := by decide
example : stringIsEmpty "A/B" = false := by decide

/-- `this.targetNodes.push(nodeTarget)` on container `i`. -/
def pushTarget (st : St) (i t : Nat) : St :=
  modifyC st i (fun c => { c with targetNodes := c.targetNodes ++ [t] })

/-- `this.sourceNodes.push(nodeCallers)` on container `i`. -/
def pushSource (st : St) (i s : Nat) : St :=
  modifyC st i (fun c => { c with sourceNodes := c.sourceNodes ++ [s] })

/-- `Container.rollupIsCallingThisNode(nodeTarget)` on container `i`:
push `target` onto `targetNodes` of `i`, then recurse into the parent.
The JS recursion is unbounded; `fuel` dominates the parent chain (which is
strictly decreasing in any well-formed arena). -/
def rollupCalling (st : St) (fuel : Nat) (i target : Nat) : St :=
  match fuel with
  | 0 => st
  | fuel + 1 =>
      match parentOf (pushTarget st i target) i with
      | none => pushTarget st i target
      | some p => rollupCalling (pushTarget st i target) fuel p target

/-- `Container.rollupIsBeingCalledByThisNode(nodeCallers)` on container
`i`: push `source` onto `sourceNodes` of `i` and recurse into the parent. -/
def rollupCalled (st : St) (fuel : Nat) (i source : Nat) : St :=
  match fuel with
  | 0 => st
  | fuel + 1 =>
      match parentOf (pushSource st i source) i with
      | none => pushSource st i source
      | some p => rollupCalled (pushSource st i source) fuel p source

/-- The strictly decreasing parent chain of `i` (exclusive), `fuel`-bounded. -/
def ancChain (st : St) : Nat → Nat → List Nat
  | 0, _ => []
  | fuel + 1, i =>
      match parentOf st i with
      | none => []
      | some p => p :: ancChain st fuel p

/-- All ancestors of `i` up to the root (`fuel` saturated). -/
def ancestorsOf (st : St) (i : Nat) : List Nat :=
  ancChain st st.containers.length i

/-- Modelled from the spec: `models/edges.js` is not under `src/`.
`Edges.getEdge(a, b)` — the edge object for the ordered pair, if any
(§4.2: "at most one Edge object per ordered (source, target) pair"). -/
def getEdge (st : St) (a b : Nat) : Option EdgeRec :=
  st.edges.find? (fun e => e.source == a && e.target == b)

/-- Modelled from the spec: `models/edges.js` is not under `src/`.
`Edges.upsertEdge(source, target)` — "returns an existing edge for the
ordered pair or creates one" (§4.2); a fresh edge starts unclassified. -/
def edgesUpsert (st : St) (s t : Nat) : St :=
  match getEdge st s t with
  | some _ => st
  | none =>
      let e : EdgeRec :=
        { source := s, target := t, isCircular := false, isUpDependency := false }
      { st with edges := st.edges ++ [e] }

/-- `Graph.upsertEdge(nodeSource, nodeTarget)`: roll the relationship up
both ancestor chains, then upsert into the edge collection. -/
def upsertEdge (st : St) (s t : Nat) : St :=
  edgesUpsert
    (rollupCalled (rollupCalling st st.containers.length s t)
      (rollupCalling st st.containers.length s t).containers.length t s) s t

/-- `Graph.upsertFileLinkByText` helper: fetch the leaf registered for
`text`, or create a parentless container and register it. -/
def ensureFileNode (st : St) (text : String) : St × Nat :=
  match getLeafNodeByUserData st text with
  | some i => (st, i)
  | none =>
      let i := st.containers.length
      let st1 : St := { st with containers := st.containers ++ [newContainer none text] }
      (setAsLeaf st1 i text, i)

/-- `Graph.upsertFileLinkByText(textA, textB)`. -/
def upsertFileLinkByText (st : St) (textA textB : String) : St :=
  let ra := ensureFileNode st textA
  let rb := ensureFileNode ra.1 textB
  upsertEdge rb.1 ra.2 rb.2

/-- Append if not already present — one `Set.add` step (JS sets keep
insertion order and drop duplicates). -/
def addUnique (l : List Nat) (x : Nat) : List Nat :=
  if x ∈ l then l else l ++ [x]

/-- `Graph.getAllNodesInEdges()`: every source and target of the edge
collection, first-occurrence order. -/
def getAllNodesInEdges (st : St) : List Nat :=
  st.edges.foldl (fun acc e => addUnique (addUnique acc e.source) e.target) []

/-- `Container.cumulateNodeInDataSet(dataSet)`: add this node, then
recurse into `sub`.  `fuel` dominates the tree height. -/
def cumulateNode (st : St) : Nat → List Nat → Nat → List Nat
  | 0, acc, _ => acc
  | fuel + 1, acc, i =>
      (subOf st i).foldl (fun a j => cumulateNode st fuel a j) (addUnique acc i)

/-- `Graph.getAllNodes()`: depth-first set of every container reachable
from the root. -/
def getAllNodes (st : St) : List Nat :=
  cumulateNode st (st.containers.length + 1) [] 0

/-- `Container.getFlatListOfNodes()`: the leaf descendants of `i`
(`i` itself when it is a leaf). -/
def flatNodes (st : St) : Nat → Nat → List Nat
  | 0, _ => []
  | fuel + 1, i =>
      if isLeafOf st i then [i]
      else (subOf st i).foldl (fun acc j => acc ++ flatNodes st fuel j) []

/-- `Graph.getFlatListOfNodes` at the default fuel. -/
def getFlatListOfNodes (st : St) (i : Nat) : List Nat :=
  flatNodes st (st.containers.length + 1) i

/-- `Graph.getOrphanNodes()`: nodes of the tree that touch no edge and —
when they are not leaves — contain no leaf (`getFlatListOfNodes` empty). -/
def getOrphanNodes (st : St) : List Nat :=
  (getAllNodes st).filter (fun n =>
    if n ∈ getAllNodesInEdges st then false
    else if isLeafOf st n then true
    else (getFlatListOfNodes st n).length == 0)

/-- `Graph.isCircular(nodeA, nodeB)`: a two-way connection between two
distinct containers. -/
def isCircularG (st : St) (a b : Nat) : Bool :=
  if a == b then false
  else (getEdge st a b).isSome && (getEdge st b a).isSome

/-- Lexicographic comparison of character lists by code point — the model
of JS string comparison (default array sort order / `localeCompare` under
the C locale). -/
def charsLe : List Char → List Char → Bool
  | [], _ => true
  | _ :: _, [] => false
  | x :: xs, y :: ys => if x == y then charsLe xs ys else decide (x.toNat < y.toNat)

/-- String comparison used by every sort in the embedding. -/
def strLe (a b : String) : Bool := charsLe a.data b.data

/-- Lexicographic order on the (source name, target name) key, the
comparator of `Edges.sortByName` (ties by source name fall through to the
target name). -/
def leNamePair (a b : String × String) : Bool :=
  if a.1 == b.1 then strLe a.2 b.2 else strLe a.1 b.1

/-- The sortByName comparator as a relation on edges in a given state. -/
def edgeNameLe (st : St) (e1 e2 : EdgeRec) : Prop :=
  leNamePair (nameOf st e1.source, nameOf st e1.target)
             (nameOf st e2.source, nameOf st e2.target) = true

instance (st : St) : DecidableRel (edgeNameLe st) := fun _ _ => by
  unfold edgeNameLe; infer_instance

/-- Modelled from the spec: `models/edges.js` is not under `src/`.
`Edges.sortByName()` — "stable sort by `source.name` then `target.name`"
(§4.2); a stable sort (insertion sort) models the JS array sort. -/
def sortEdgesByName (st : St) : St :=
  { st with edges := st.edges.insertionSort (edgeNameLe st) }

/-- `Graph.prepareEdges()`: sort, then recompute `isCircular` for every
edge and reset `isUpDependency` (the shipped `models/graph.js` leaves the
up-dependency marking to `GLAD.runLayeringForDependencyAnalysis`). -/
def prepareEdges (st : St) : St :=
  let st1 := sortEdgesByName st
  { st1 with edges := st1.edges.map (fun e =>
      { e with isCircular := isCircularG st1 e.source e.target,
               isUpDependency := false }) }

example :
    (upsertEdge (upsert initSt 0 "A").1 1 1).edges =
      [{ source := 1, target := 1, isCircular := false, isUpDependency := false }] := by
  decide

example :
    let st := (upsert (upsert initSt 0 "A").1 0 "B").1
    let st2 := upsertEdge (upsertEdge st 1 2) 2 1
    (prepareEdges st2).edges.all (fun e => e.isCircular) = true := by
  decide

/-- `strLe` as a relation, for the sorting lemmas. -/
def strLeP (a b : String) : Prop := strLe a b = true

instance : DecidableRel strLeP := fun _ _ => instDecidableEqBool _ _

/-- `leNamePair` as a relation on string pairs (the serialize edge
comparator: by source, ties by target). -/
def pairLeP (a b : String × String) : Prop := leNamePair a b = true

instance : DecidableRel pairLeP := fun _ _ => instDecidableEqBool _ _

/-- First half of `Graph.serialize()`: collect `n.data` of every tree node
whose data is non-empty into a set (insertion order, first occurrence
wins), then sort — the `"nodes"` array of the emitted JSON. -/
def serializeNodes (st : St) : List String :=
  let collected := (getAllNodes st).foldl
    (fun acc n =>
      if stringIsEmpty (dataOf st n) then acc
      else if dataOf st n ∈ acc then acc else acc ++ [dataOf st n]) []
  collected.insertionSort strLeP

/-- Second half of `Graph.serialize()`: one `(source.data, target.data)`
pair per edge, sorted by source then target — the `"edges"` array. -/
def serializeEdges (st : St) : List (String × String) :=
  (st.edges.map (fun e => (dataOf st e.source, dataOf st e.target))).insertionSort pairLeP

/-- `Graph.serialize()` — the `JSON.stringify` wrapper is dropped; the
payload is the (nodes, edges) pair it stringifies. -/
def serialize (st : St) : List String × List (String × String) :=
  (serializeNodes st, serializeEdges st)

/-- The `(source, target)` pairs of the edges not flagged circular — the
edge set the spec's layering operates on (§4.3: "cycle edges are
pre-excluded from influencing depth"). -/
def noncircPairs (st : St) : List (Nat × Nat) :=
  (st.edges.filter (fun e => !e.isCircular)).map (fun e => (e.source, e.target))

/-- Fuel-bounded reachability along directed pairs (a path of at most
`fuel` edges). -/
def reachB (es : List (Nat × Nat)) : Nat → Nat → Nat → Bool
  | 0, _, _ => false
  | fuel + 1, a, b => es.any (fun p => p.1 == a && (p.2 == b || reachB es fuel p.2 b))

/-- A node lying on a cycle of non-circular edges (reachable from itself by
a non-empty path; any such path needs at most `edges.length` steps). -/
def onCycle (st : St) (n : Nat) : Bool :=
  reachB (noncircPairs st) (st.edges.length + 1) n n

/-- The non-circular predecessors of `n`. -/
def predsOf (st : St) (n : Nat) : List Nat :=
  ((noncircPairs st).filter (fun p => p.2 == n)).map (·.1)

/-- Modelled from the spec: `render/renderBase.js` (`createLayers`) and
`models/layers.js` are not under `src/`.  Depth assignment of §4.3: a
node's depth is the maximum over its non-circular predecessors' depths plus
one; nodes on a cycle are assigned depth 0 and are excluded as
predecessors (the visiting/visited guard).  `fuel` dominates the longest
cycle-free chain. -/
def depthAux (st : St) : Nat → Nat → Nat
  | 0, _ => 0
  | fuel + 1, n =>
      if onCycle st n then 0
      else (predsOf st n).foldl (fun acc p =>
        if onCycle st p then acc else max acc (depthAux st fuel p + 1)) 0

/-- The depth assigned to `n` (fuel instantiated). -/
def depthOfN (st : St) (n : Nat) : Nat := depthAux st (st.edges.length + 1) n

/-- Largest depth over a node list. -/
def maxDepth (st : St) (nodes : List Nat) : Nat :=
  nodes.foldl (fun m n => max m (depthOfN st n)) 0

/-- Modelled from the spec: the `Layers` rows `createLayers` builds for
`getAllNodesInEdges` — row `k` holds the nodes of depth `k` (§4.3 step 5:
layering and rendering share one depth map). -/
def mkLayers (st : St) : List (List Nat) :=
  (List.range (maxDepth st (getAllNodesInEdges st) + 1)).map (fun k =>
    (getAllNodesInEdges st).filter (fun n => depthOfN st n == k))

/-- The `layers.forEach((layer, index) => if (layer.nodes.includes(node))
idx = index)` scan of `GLAD.simulateRenderingToMarkUpDependencies`:
the index of the last row containing `n`, `-1` when none does. -/
def findLayerIdxGo (n : Nat) : List (List Nat) → Nat → Int → Int
  | [], _, acc => acc
  | l :: ls, i, acc => findLayerIdxGo n ls (i + 1) (if n ∈ l then (i : Int) else acc)

/-- Layer index of `n` (`-1` when `n` is in no row). -/
def findLayerIdx (layers : List (List Nat)) (n : Nat) : Int :=
  findLayerIdxGo n layers 0 (-1)

/-- The marking condition of `simulateRenderingToMarkUpDependencies`:
`sourceLayerIndex >= targetLayerIndex && sourceLayerIndex !== -1 &&
targetLayerIndex !== -1`. -/
def simCond (layers : List (List Nat)) (e : EdgeRec) : Bool :=
  decide (findLayerIdx layers e.target ≤ findLayerIdx layers e.source) &&
    !(findLayerIdx layers e.source == -1) && !(findLayerIdx layers e.target == -1)

/-- `GLAD.simulateRenderingToMarkUpDependencies(layers)` (`lib/glad.js`):
for every non-circular edge whose endpoints both sit in rows, mark it an
up-dependency when the source row index is `>=` the target row index. -/
def simulateRendering (st : St) (layers : List (List Nat)) : St :=
  { st with edges := st.edges.map (fun e =>
      if e.isCircular then e
      else if simCond layers e then { e with isUpDependency := true }
      else e) }

/-- `GLAD.runLayeringForDependencyAnalysis()` (`lib/glad.js`): nothing to
do without edge nodes; otherwise build the layers and simulate the
rendering to mark up-dependencies. -/
def runLayering (st : St) : St :=
  if (getAllNodesInEdges st).isEmpty then st
  else simulateRendering st (mkLayers st)

example :
    let st := (upsert (upsert (upsert initSt 0 "a").1 0 "b").1 0 "c").1
    let st3 := upsertEdge (upsertEdge (upsertEdge st 1 2) 2 3) 3 1
    let st4 := runLayering (prepareEdges st3)
    st4.edges.all (fun e => !e.isCircular && e.isUpDependency) = true := by decide

example :
    let st := (upsert (upsert initSt 0 "a").1 0 "b").1
    let st3 := upsertEdge (upsertEdge st 1 2) 2 1
    let st4 := runLayering (prepareEdges st3)
    st4.edges.all (fun e => e.isCircular && !e.isUpDependency) = true := by decide

example :
    let stc := createContainerMapping initSt 0 ["A", "B"] "A/B"
    serializeNodes stc = ["A", "A/B"] := by decide

/-- A token of the compiled exclude pattern.  The JS code escapes the
pattern and then rewrites, in order, `**/` to `(.*/)?`, `**` to `.*`,
`*` to `[^/]*` (`lib/glad.js`) or `.*` (`lib/util/strings.js`), and `?` to
`[^/]`.  Replaced regions are opaque to the later rewrites, so the
compiled regex is exactly a token string. -/
inductive GTok where
  | lit (c : Char)
  | anySeg
  | anySegForce
  | anyChars
  | star
  | qmark
deriving Repr, DecidableEq

/-- First rewrite: each (non-overlapping, leftmost) `**/` becomes one
token. -/
def pass1 : List Char → List GTok
  | '*' :: '*' :: '/' :: rest => .anySeg :: pass1 rest
  | c :: rest => .lit c :: pass1 rest
  | [] => []

/-- Second rewrite: remaining `**` pairs. -/
def pass2 : List GTok → List GTok
  | .lit '*' :: .lit '*' :: rest => .anyChars :: pass2 rest
  | t :: rest => t :: pass2 rest
  | [] => []

/-- Third rewrite: remaining single `*`. -/
def pass3 : List GTok → List GTok
  | .lit '*' :: rest => .star :: pass3 rest
  | t :: rest => t :: pass3 rest
  | [] => []

/-- Fourth rewrite: `?`. -/
def pass4 : List GTok → List GTok
  | .lit '?' :: rest => .qmark :: pass4 rest
  | t :: rest => t :: pass4 rest
  | [] => []

/-- The compiled token string of an exclude pattern. -/
def compilePattern (p : String) : List GTok :=
  pass4 (pass3 (pass2 (pass1 p.data)))

/-- Token weight for the termination measure of `tokMatch`
(`anySeg` may step to `anySegForce` without consuming input). -/
def tokWt : GTok → Nat
  | .anySeg => 2
  | _ => 1

/-- JS regex `.` (no `s` flag): any character except a line terminator
(LF, CR, U+2028 LINE SEPARATOR, U+2029 PARAGRAPH SEPARATOR). -/
def jsDot (c : Char) : Bool :=
  !(c == '\n' || c == '\r' || c == '\u2028' || c == '\u2029')

/-- The one-character test of the compiled `*`: `[^/]` in `lib/glad.js`
(`starAny = false`, line terminators included), JS `.` in
`lib/util/strings.js` (`starAny = true`, line terminators excluded). -/
def starChar (starAny : Bool) (x : Char) : Bool :=
  if starAny then jsDot x else !(x == '/')

/-- Anchored regex matching of the compiled tokens against the path.
`starAny` selects the `*` semantics: `[^/]*` in `lib/glad.js`
(`starAny = false`), `.*` in `lib/util/strings.js` (`starAny = true`).
`anyChars` is `.*` and `anySeg` is `(.*/)?`: either nothing, or a run of
JS-`.` characters ending in a literal `/` (`anySegForce` is its committed
half) — the `.`-based tokens never consume a line terminator, while
`[^/]` (`qmark`, and `star` with `starAny = false`) does.  Every step
shrinks the pair (chars left, token weight), so a fuel of
`s.length + weight + 1` never runs out (`gmatch` below). -/
def tokMatch (starAny : Bool) : Nat → List GTok → List Char → Bool
  | 0, _, _ => false
  | _ + 1, [], [] => true
  | _ + 1, [], _ :: _ => false
  | _ + 1, .lit _ :: _, [] => false
  | f + 1, .lit c :: ts, x :: xs => c == x && tokMatch starAny f ts xs
  | _ + 1, .qmark :: _, [] => false
  | f + 1, .qmark :: ts, x :: xs => !(x == '/') && tokMatch starAny f ts xs
  | f + 1, .anyChars :: ts, [] => tokMatch starAny f ts []
  | f + 1, .anyChars :: ts, x :: xs =>
      tokMatch starAny f ts (x :: xs) ||
        (jsDot x && tokMatch starAny f (.anyChars :: ts) xs)
  | f + 1, .star :: ts, [] => tokMatch starAny f ts []
  | f + 1, .star :: ts, x :: xs =>
      tokMatch starAny f ts (x :: xs) ||
        (starChar starAny x && tokMatch starAny f (.star :: ts) xs)
  | f + 1, .anySeg :: ts, s =>
      tokMatch starAny f ts s || tokMatch starAny f (.anySegForce :: ts) s
  | _ + 1, .anySegForce :: _, [] => false
  | f + 1, .anySegForce :: ts, x :: xs =>
      (x == '/' && tokMatch starAny f ts xs) ||
        (jsDot x && tokMatch starAny f (.anySegForce :: ts) xs)

/-- Whole-string match of a compiled pattern (fuel instantiated so that it
cannot be exhausted). -/
def gmatch (starAny : Bool) (ts : List GTok) (s : List Char) : Bool :=
  tokMatch starAny (s.length + (ts.map tokWt).sum + 1) ts s

/-- `lib/util/strings.js matchesExcludePattern(filePath, excludePatterns)`:
some pattern matches the whole path (`*` compiled to `.*`, crossing `/`).
The scalar-to-singleton wrapping of the JS entry point is rendered by
taking the pattern list directly. -/
def matchesExcludePatternStrings (filePath : String) (pats : List String) : Bool :=
  pats.any (fun p => gmatch true (compilePattern p) filePath.data)

/-- `GLAD.matchesExcludePattern` (`lib/glad.js`): identical except `*` is
compiled to `[^/]*`, confined to one path segment. -/
def matchesExcludePatternGlad (filePath : String) (pats : List String) : Bool :=
  pats.any (fun p => gmatch false (compilePattern p) filePath.data)

example : matchesExcludePatternStrings "a/b" ["a*b"] = true := by decide
example : matchesExcludePatternGlad "a/b" ["a*b"] = false := by decide
example : matchesExcludePatternGlad "x/y/foo.t" ["**/*.t"] = true := by decide
example : matchesExcludePatternGlad "foo.t" ["**/*.t"] = true := by decide
example : matchesExcludePatternGlad "a/b" ["a?b"] = false := by decide
example : matchesExcludePatternGlad "axb" ["a?b"] = true := by decide

/-- A token of the claim's reading of the glob rules. -/
inductive CTok where
  | lit (c : Char)
  | anyDepth
  | seg
  | one
deriving Repr, DecidableEq

/-- Definition following the claim's words, not the source: `**` matches
any number of path segments, `*` matches only characters within a single
path segment (never a `/`), `?` matches exactly one character. -/
def compileClaimPattern : List Char → List CTok
  | '*' :: '*' :: rest => .anyDepth :: compileClaimPattern rest
  | '*' :: rest => .seg :: compileClaimPattern rest
  | '?' :: rest => .one :: compileClaimPattern rest
  | c :: rest => .lit c :: compileClaimPattern rest
  | [] => []

/-- Definition following the claim's words, not the source: anchored
matching where `seg` (`*`) consumes only non-`/` characters, `one` (`?`)
consumes exactly one arbitrary character, and `anyDepth` (`**`) consumes
anything. -/
def claimTokMatch : Nat → List CTok → List Char → Bool
  | 0, _, _ => false
  | _ + 1, [], [] => true
  | _ + 1, [], _ :: _ => false
  | _ + 1, .lit _ :: _, [] => false
  | f + 1, .lit c :: ts, x :: xs => c == x && claimTokMatch f ts xs
  | _ + 1, .one :: _, [] => false
  | f + 1, .one :: ts, _ :: xs => claimTokMatch f ts xs
  | f + 1, .anyDepth :: ts, [] => claimTokMatch f ts []
  | f + 1, .anyDepth :: ts, x :: xs =>
      claimTokMatch f ts (x :: xs) || claimTokMatch f (.anyDepth :: ts) xs
  | f + 1, .seg :: ts, [] => claimTokMatch f ts []
  | f + 1, .seg :: ts, x :: xs =>
      claimTokMatch f ts (x :: xs) ||
        (!(x == '/') && claimTokMatch f (.seg :: ts) xs)

/-- Exclusion under the claim's rules: the whole path matches some
pattern. -/
def matchesClaimRules (filePath : String) (pats : List String) : Bool :=
  pats.any (fun p =>
    claimTokMatch (filePath.length + p.length + 1)
      (compileClaimPattern p.data) filePath.data)

example : matchesClaimRules "a/b" ["a*b"] = false := by decide
example : matchesClaimRules "a/b" ["a?b"] = true := by decide
example : matchesClaimRules "x/y/f.t" ["**/*.t"] = true := by decide

theorem getEdge_isSome_iff (st : St) (a b : Nat) :
    (getEdge st a b).isSome ↔ ∃ e ∈ st.edges, e.source = a ∧ e.target = b := by
  unfold getEdge
  rw [List.find?_isSome]
  constructor
  · rintro ⟨e, he, hp⟩
    refine ⟨e, he, ?_⟩
    simpa using hp
  · rintro ⟨e, he, h1, h2⟩
    exact ⟨e, he, by simp [h1, h2]⟩

theorem mem_sortEdges (st : St) (e : EdgeRec) :
    e ∈ (sortEdgesByName st).edges ↔ e ∈ st.edges := by
  unfold sortEdgesByName
  exact (List.perm_insertionSort _ _).mem_iff

theorem mem_prepareEdges (st : St) (e : EdgeRec) (he : e ∈ (prepareEdges st).edges) :
    ∃ e0 ∈ (sortEdgesByName st).edges,
      e = { e0 with isCircular := isCircularG (sortEdgesByName st) e0.source e0.target,
                    isUpDependency := false } := by
  unfold prepareEdges at he
  rcases List.mem_map.mp he with ⟨e0, h0, hflag⟩
  exact ⟨e0, h0, hflag.symm⟩

theorem isCircularG_true (st : St) (a b : Nat) (hab : a ≠ b)
    (h1 : ∃ e ∈ st.edges, e.source = a ∧ e.target = b)
    (h2 : ∃ e ∈ st.edges, e.source = b ∧ e.target = a) :
    isCircularG st a b = true := by
  unfold isCircularG
  rw [if_neg (by simpa using hab)]
  rw [Bool.and_eq_true]
  exact ⟨(getEdge_isSome_iff st a b).mpr h1, (getEdge_isSome_iff st b a).mpr h2⟩

/-- **C2.** After `prepareEdges`, for any two distinct containers `a` and
`b` with both an `a→b` and a `b→a` edge present, both edges carry
`isCircular = true`; and every self-edge carries `isCircular = false`. -/
theorem C2_prepareEdges_circularity (st : St) :
    (∀ a b : Nat, a ≠ b →
      ∀ ea ∈ (prepareEdges st).edges, ea.source = a → ea.target = b →
        (∃ eb ∈ (prepareEdges st).edges, eb.source = b ∧ eb.target = a) →
        ea.isCircular = true) ∧
    (∀ e ∈ (prepareEdges st).edges, e.source = e.target → e.isCircular = false) := by
  constructor
  · intro a b hab ea hea hsrc htgt hrev
    rcases mem_prepareEdges st ea hea with ⟨e0, h0, hflag⟩
    have hsrc0 : e0.source = a := by rw [hflag] at hsrc; exact hsrc
    have htgt0 : e0.target = b := by rw [hflag] at htgt; exact htgt
    rcases hrev with ⟨eb, heb, hbsrc, hbtgt⟩
    rcases mem_prepareEdges st eb heb with ⟨e1, h1, hflag1⟩
    have h1src : e1.source = b := by rw [hflag1] at hbsrc; exact hbsrc
    have h1tgt : e1.target = a := by rw [hflag1] at hbtgt; exact hbtgt
    rw [hflag]
    show isCircularG (sortEdgesByName st) e0.source e0.target = true
    rw [hsrc0, htgt0]
    exact isCircularG_true _ a b hab ⟨e0, h0, hsrc0, htgt0⟩ ⟨e1, h1, h1src, h1tgt⟩
  · intro e he hself
    rcases mem_prepareEdges st e he with ⟨e0, h0, hflag⟩
    have hself0 : e0.source = e0.target := by rw [hflag] at hself; exact hself
    rw [hflag]
    show isCircularG (sortEdgesByName st) e0.source e0.target = false
    rw [hself0]
    unfold isCircularG
    simp

/-- Containers `0` (root) with children `1` (`"A"`) and `2` (`"B"`). -/
def exTwoNodes : St := (upsert (upsert initSt 0 "A").1 0 "B").1

/-- `exTwoNodes` plus the two-cycle `1→2`, `2→1`. -/
def exTwoCycle : St := upsertEdge (upsertEdge exTwoNodes 1 2) 2 1

theorem C2_prepareEdges_circularity_witness :
    (1 : Nat) ≠ 2 ∧
    (⟨1, 2, true, false⟩ : EdgeRec) ∈ (prepareEdges exTwoCycle).edges ∧
    (⟨1, 2, true, false⟩ : EdgeRec).isCircular = true :=
  ⟨by decide, by decide,
    (C2_prepareEdges_circularity exTwoCycle).1 1 2 (by decide)
      ⟨1, 2, true, false⟩ (by decide) rfl rfl
      ⟨⟨2, 1, true, false⟩, by decide, rfl, rfl⟩⟩

theorem mem_addUnique (l : List Nat) (y x : Nat) :
    x ∈ addUnique l y ↔ x ∈ l ∨ x = y := by
  unfold addUnique
  by_cases h : y ∈ l
  · rw [if_pos h]
    constructor
    · exact .inl
    · rintro (hx | rfl)
      · exact hx
      · exact h
  · rw [if_neg h]
    simp

theorem mem_nodesFold (l : List EdgeRec) (acc : List Nat) (x : Nat) :
    x ∈ l.foldl (fun acc e => addUnique (addUnique acc e.source) e.target) acc ↔
      x ∈ acc ∨ ∃ e ∈ l, e.source = x ∨ e.target = x := by
  induction l generalizing acc with
  | nil => simp
  | cons e l ih =>
      rw [List.foldl_cons, ih, mem_addUnique, mem_addUnique]
      constructor
      · rintro (((h | rfl) | rfl) | ⟨e', he', h'⟩)
        · exact .inl h
        · exact .inr ⟨e, .head _, .inl rfl⟩
        · exact .inr ⟨e, .head _, .inr rfl⟩
        · exact .inr ⟨e', .tail _ he', h'⟩
      · rintro (h | ⟨e', he', h'⟩)
        · exact .inl (.inl (.inl h))
        · rcases List.mem_cons.mp he' with rfl | he''
          · rcases h' with h' | h'
            · exact .inl (.inl (.inr h'.symm))
            · exact .inl (.inr h'.symm)
          · exact .inr ⟨e', he'', h'⟩

theorem mem_getAllNodesInEdges (st : St) (x : Nat) :
    x ∈ getAllNodesInEdges st ↔ ∃ e ∈ st.edges, e.source = x ∨ e.target = x := by
  unfold getAllNodesInEdges
  rw [mem_nodesFold]
  simp

theorem foldl_max_init_le (f : Nat → Nat) (l : List Nat) :
    ∀ a, a ≤ l.foldl (fun m x => max m (f x)) a := by
  induction l with
  | nil => intro a; simp
  | cons m l ih =>
      intro a
      rw [List.foldl_cons]
      exact le_trans (le_max_left _ _) (ih _)

theorem foldl_max_mem_le (f : Nat → Nat) (l : List Nat) (n : Nat) (hn : n ∈ l) :
    ∀ a, f n ≤ l.foldl (fun m x => max m (f x)) a := by
  induction l with
  | nil => cases hn
  | cons m l ih =>
      intro a
      rw [List.foldl_cons]
      rcases List.mem_cons.mp hn with rfl | hn'
      · exact le_trans (le_max_right _ _) (foldl_max_init_le f l _)
      · exact ih hn' _

theorem depthOfN_le_maxDepth (st : St) (nodes : List Nat) (n : Nat) (hn : n ∈ nodes) :
    depthOfN st n ≤ maxDepth st nodes :=
  foldl_max_mem_le (depthOfN st) nodes n hn 0

theorem findLayerIdxGo_range' (st : St) (nodes : List Nat) (n : Nat) (hn : n ∈ nodes) :
    ∀ (c a : Nat) (acc : Int),
      findLayerIdxGo n
        ((List.range' a c).map (fun k => nodes.filter (fun m => depthOfN st m == k))) a acc =
      if a ≤ depthOfN st n ∧ depthOfN st n < a + c then (depthOfN st n : Int) else acc := by
  intro c
  induction c with
  | zero =>
      intro a acc
      rw [if_neg (by omega)]
      rfl
  | succ c ih =>
      intro a acc
      rw [List.range'_succ, List.map_cons, findLayerIdxGo]
      have hmem : (n ∈ nodes.filter (fun m => depthOfN st m == a)) ↔ depthOfN st n = a := by
        rw [List.mem_filter]
        simp [hn]
      by_cases hd : depthOfN st n = a
      · rw [if_pos (hmem.mpr hd), ih]
        by_cases h2 : a + 1 ≤ depthOfN st n ∧ depthOfN st n < a + 1 + c
        · rw [if_pos h2, if_pos (by omega)]
        · rw [if_neg h2, if_pos (by omega), hd]
      · rw [if_neg (fun h => hd (hmem.mp h)), ih]
        by_cases h2 : a + 1 ≤ depthOfN st n ∧ depthOfN st n < a + 1 + c
        · rw [if_pos h2, if_pos (by omega)]
        · rw [if_neg h2, if_neg (by omega)]

theorem findLayerIdx_mkLayers (st : St) (n : Nat) (hn : n ∈ getAllNodesInEdges st) :
    findLayerIdx (mkLayers st) n = (depthOfN st n : Int) := by
  unfold findLayerIdx mkLayers
  rw [List.range_eq_range']
  rw [findLayerIdxGo_range' st (getAllNodesInEdges st) n hn (maxDepth st (getAllNodesInEdges st) + 1) 0 (-1)]
  rw [if_pos]
  refine ⟨Nat.zero_le _, ?_⟩
  have := depthOfN_le_maxDepth st (getAllNodesInEdges st) n hn
  omega

theorem prepare_isUp_false (st : St) (e : EdgeRec) (he : e ∈ (prepareEdges st).edges) :
    e.isUpDependency = false := by
  rcases mem_prepareEdges st e he with ⟨e0, _, hflag⟩
  rw [hflag]

theorem simCond_eq (st : St) (e : EdgeRec)
    (hs : e.source ∈ getAllNodesInEdges st) (ht : e.target ∈ getAllNodesInEdges st) :
    simCond (mkLayers st) e = decide (depthOfN st e.target ≤ depthOfN st e.source) := by
  unfold simCond
  rw [findLayerIdx_mkLayers st e.source hs, findLayerIdx_mkLayers st e.target ht]
  have h1 : (((depthOfN st e.source : Int)) == (-1 : Int)) = false := by
    rw [beq_eq_false_iff_ne]
    omega
  have h2 : (((depthOfN st e.target : Int)) == (-1 : Int)) = false := by
    rw [beq_eq_false_iff_ne]
    omega
  rw [h1, h2]
  simp only [Bool.not_false, Bool.and_true]
  by_cases h : depthOfN st e.target ≤ depthOfN st e.source
  · rw [decide_eq_true (by exact_mod_cast h), decide_eq_true h]
  · rw [decide_eq_false (by exact_mod_cast h), decide_eq_false h]

/-- **C1.** After `prepareEdges` and the up-dependency pass
(`runLayeringForDependencyAnalysis`), every edge not flagged circular has
`isUpDependency = true` exactly when the layer depth assigned to its source
is greater than or equal to the layer depth assigned to its target. -/
theorem C1_upDependency_iff_depth (st : St) (e : EdgeRec)
    (he : e ∈ (runLayering (prepareEdges st)).edges)
    (hnc : e.isCircular = false) :
    e.isUpDependency = true ↔
      depthOfN (prepareEdges st) e.target ≤ depthOfN (prepareEdges st) e.source := by
  unfold runLayering at he
  by_cases hemp : (getAllNodesInEdges (prepareEdges st)).isEmpty
  · rw [if_pos hemp] at he
    exfalso
    have hsrc : e.source ∈ getAllNodesInEdges (prepareEdges st) :=
      (mem_getAllNodesInEdges _ _).mpr ⟨e, he, .inl rfl⟩
    rw [List.isEmpty_iff] at hemp
    rw [hemp] at hsrc
    cases hsrc
  · rw [if_neg hemp] at he
    unfold simulateRendering at he
    rcases List.mem_map.mp he with ⟨e0, h0, hg⟩
    by_cases hc : e0.isCircular
    · rw [if_pos hc] at hg
      rw [← hg, hc] at hnc
      cases hnc
    · rw [if_neg (by simp [hc])] at hg
      have hsrcmem : e0.source ∈ getAllNodesInEdges (prepareEdges st) :=
        (mem_getAllNodesInEdges _ _).mpr ⟨e0, h0, .inl rfl⟩
      have htgtmem : e0.target ∈ getAllNodesInEdges (prepareEdges st) :=
        (mem_getAllNodesInEdges _ _).mpr ⟨e0, h0, .inr rfl⟩
      have hcond := simCond_eq (prepareEdges st) e0 hsrcmem htgtmem
      by_cases hle : depthOfN (prepareEdges st) e0.target ≤ depthOfN (prepareEdges st) e0.source
      · rw [decide_eq_true hle] at hcond
        rw [if_pos hcond] at hg
        rw [← hg]
        constructor
        · intro _
          exact hle
        · intro _
          rfl
      · rw [decide_eq_false hle] at hcond
        rw [if_neg (by simp [hcond])] at hg
        rw [← hg]
        have hup0 : e0.isUpDependency = false := prepare_isUp_false st e0 h0
        constructor
        · intro h
          rw [hup0] at h
          cases h
        · intro h
          exact absurd h hle

/-- Containers `0` (root) with children `1` (`"a"`), `2` (`"b"`),
`3` (`"c"`). -/
def exThreeNodes : St :=
  (upsert (upsert (upsert initSt 0 "a").1 0 "b").1 0 "c").1

/-- `exThreeNodes` plus the three-cycle `1→2→3→1` (no two-cycles, so no
edge is flagged circular). -/
def exThreeCycle : St :=
  upsertEdge (upsertEdge (upsertEdge exThreeNodes 1 2) 2 3) 3 1

theorem C1_upDependency_iff_depth_witness :
    (⟨1, 2, false, true⟩ : EdgeRec) ∈ (runLayering (prepareEdges exThreeCycle)).edges ∧
    (⟨1, 2, false, true⟩ : EdgeRec).isCircular = false ∧
    depthOfN (prepareEdges exThreeCycle) 2 ≤ depthOfN (prepareEdges exThreeCycle) 1 :=
  ⟨by decide, rfl,
    (C1_upDependency_iff_depth exThreeCycle ⟨1, 2, false, true⟩ (by decide) rfl).mp rfl⟩

/-- **C3, counterexample.** In the three-cycle `1→2→3→1` every edge node
is mutually reachable (one strongly-connected component) and the layering
pass assigns depth 0 throughout — yet none of the three edges is flagged
circular and every one of them is marked as an up-dependency, because
`simulateRenderingToMarkUpDependencies` marks every non-circular edge whose
source row is `>=` its target row and a three-cycle has no reverse pairs. -/
theorem C3_counterexample :
    ((getAllNodesInEdges exThreeCycle).all (fun n =>
      (getAllNodesInEdges exThreeCycle).all (fun m =>
        reachB (exThreeCycle.edges.map (fun e => (e.source, e.target)))
          (exThreeCycle.edges.length + 1) n m)) = true) ∧
    (((getAllNodesInEdges (prepareEdges exThreeCycle)).all (fun n =>
        depthOfN (prepareEdges exThreeCycle) n == 0)) = true) ∧
    ((runLayering (prepareEdges exThreeCycle)).edges.length = 3) ∧
    (((runLayering (prepareEdges exThreeCycle)).edges.all (fun e =>
        !e.isCircular && e.isUpDependency)) = true) := by
  refine ⟨by decide, by decide, by decide, by decide⟩

theorem prepare_all_circular (st : St)
    (h : ∀ e ∈ st.edges, e.source ≠ e.target ∧
      ∃ e2 ∈ st.edges, e2.source = e.target ∧ e2.target = e.source)
    (e : EdgeRec) (he : e ∈ (prepareEdges st).edges) : e.isCircular = true := by
  rcases mem_prepareEdges st e he with ⟨e0, h0, hflag⟩
  have h0' : e0 ∈ st.edges := (mem_sortEdges st e0).mp h0
  rcases h e0 h0' with ⟨hne, e2, h2, h2s, h2t⟩
  rw [hflag]
  show isCircularG (sortEdgesByName st) e0.source e0.target = true
  exact isCircularG_true _ _ _ hne ⟨e0, h0, rfl, rfl⟩
    ⟨e2, (mem_sortEdges st e2).mpr h2, h2s, h2t⟩

theorem depthOfN_of_noncirc_nil (st : St) (hnil : noncircPairs st = []) (n : Nat) :
    depthOfN st n = 0 := by
  unfold depthOfN depthAux
  by_cases hc : onCycle st n
  · rw [if_pos hc]
  · rw [if_neg hc]
    unfold predsOf
    rw [hnil]
    rfl

/-- **C3, amended.** For a graph in which every edge joins two distinct
containers and has a reverse edge (a fully cyclic graph all of whose cycles
are two-cycles), the layering pass assigns depth 0 to every edge node and
the up-dependency pass marks nothing: all edges are flagged circular and
circular edges are exempt. -/
theorem C3_amended_fully_two_cyclic (st : St)
    (h : ∀ e ∈ st.edges, e.source ≠ e.target ∧
      ∃ e2 ∈ st.edges, e2.source = e.target ∧ e2.target = e.source) :
    (∀ n, depthOfN (prepareEdges st) n = 0) ∧
    (∀ e ∈ (runLayering (prepareEdges st)).edges, e.isUpDependency = false) := by
  have hall := prepare_all_circular st h
  have hnil : noncircPairs (prepareEdges st) = [] := by
    unfold noncircPairs
    rw [List.filter_eq_nil_iff.mpr (fun e he => by rw [hall e he]; decide)]
    rfl
  refine ⟨fun n => depthOfN_of_noncirc_nil _ hnil n, ?_⟩
  intro e he
  unfold runLayering at he
  by_cases hemp : (getAllNodesInEdges (prepareEdges st)).isEmpty
  · rw [if_pos hemp] at he
    exact prepare_isUp_false st e he
  · rw [if_neg hemp] at he
    unfold simulateRendering at he
    rcases List.mem_map.mp he with ⟨e0, h0, hg⟩
    rw [if_pos (hall e0 h0)] at hg
    rw [← hg]
    exact prepare_isUp_false st e0 h0

theorem C3_amended_fully_two_cyclic_witness :
    (∀ e ∈ exTwoCycle.edges, e.source ≠ e.target ∧
      ∃ e2 ∈ exTwoCycle.edges, e2.source = e.target ∧ e2.target = e.source) ∧
    (∀ e ∈ (runLayering (prepareEdges exTwoCycle)).edges, e.isUpDependency = false) :=
  ⟨by decide, (C3_amended_fully_two_cyclic exTwoCycle (by decide)).2⟩

/-- One container record is well-placed in the arena: its parent was
created before it and its children after it (GLAD only ever links a child
to an already-existing parent), and the children are in range. -/
def childOk (len i : Nat) (c : ContainerData) : Bool :=
  (match c.parent with
   | some q => decide (q < i)
   | none => true) &&
  c.sub.all (fun j => decide (i < j) && decide (j < len))

/-- Well-formed arena: non-empty (the root exists) and every container is
well-placed.  Every state the embedded operations build from `initSt`
satisfies this. -/
def WfB (st : St) : Bool :=
  !st.containers.isEmpty &&
  (List.range st.containers.length).all (fun i =>
    match st.containers[i]? with
    | some c => childOk st.containers.length i c
    | none => true)

theorem wf_childOk (st : St) (hw : WfB st = true) (i : Nat) (c : ContainerData)
    (hc : st.containers[i]? = some c) :
    childOk st.containers.length i c = true := by
  unfold WfB at hw
  rw [Bool.and_eq_true, List.all_eq_true] at hw
  have hi : i < st.containers.length := by
    by_contra hn
    rw [List.getElem?_eq_none (by omega)] at hc
    cases hc
  have := hw.2 i (List.mem_range.mpr hi)
  rw [hc] at this
  exact this

theorem wf_sub_lt (st : St) (hw : WfB st = true) (i j : Nat) (hj : j ∈ subOf st i) :
    i < j ∧ j < st.containers.length := by
  unfold subOf at hj
  cases hc : st.containers[i]? with
  | none => rw [hc] at hj; cases hj
  | some c =>
      rw [hc] at hj
      have h := wf_childOk st hw i c hc
      unfold childOk at h
      rw [Bool.and_eq_true, List.all_eq_true] at h
      have := h.2 j hj
      rw [Bool.and_eq_true, decide_eq_true_eq, decide_eq_true_eq] at this
      exact this

theorem wf_parent_lt (st : St) (hw : WfB st = true) (i p : Nat)
    (hp : parentOf st i = some p) : p < i := by
  unfold parentOf at hp
  cases hc : st.containers[i]? with
  | none => rw [hc] at hp; cases hp
  | some c =>
      rw [hc] at hp
      have h := wf_childOk st hw i c hc
      unfold childOk at h
      rw [Bool.and_eq_true] at h
      have h1 := h.1
      have hp' : c.parent = some p := by simpa using hp
      rw [hp'] at h1
      rw [decide_eq_true_eq] at h1
      exact h1

theorem subOf_eq (st : St) (i : Nat) (c : ContainerData)
    (h : st.containers[i]? = some c) : subOf st i = c.sub := by
  unfold subOf
  rw [h]
  rfl

theorem getByText_after_create (st : St) (p : Nat) (n : String)
    (hw : WfB st = true) (hp : p < st.containers.length)
    (h : getByText st p n = none) :
    getByText
      (modifyC { st with containers := st.containers ++ [newContainer (some p) n none] } p
        (fun c => { c with sub := c.sub ++ [st.containers.length] })) p n =
      some st.containers.length := by
  obtain ⟨cp, hcp⟩ : ∃ cp, st.containers[p]? = some cp :=
    ⟨_, List.getElem?_eq_getElem hp⟩
  have hst1p :
      ({ st with containers := st.containers ++ [newContainer (some p) n none] } : St).containers[p]? = some cp := by
    show (st.containers ++ _)[p]? = some cp
    rw [List.getElem?_append, if_pos hp]
    exact hcp
  unfold modifyC
  rw [hst1p]
  have hplen1 : p < (st.containers ++ [newContainer (some p) n none]).length := by
    rw [List.length_append]
    simp only [List.length_cons, List.length_nil]
    omega
  have hset :
      ((st.containers ++ [newContainer (some p) n none]).set p
        { cp with sub := cp.sub ++ [st.containers.length] })[p]? =
      some { cp with sub := cp.sub ++ [st.containers.length] } :=
    List.getElem?_set_self hplen1
  unfold getByText
  rw [subOf_eq _ p _ hset]
  show (cp.sub ++ [st.containers.length]).find? _ = _
  rw [List.find?_append]
  have hnone :
      (cp.sub.find? (fun j =>
        match ((st.containers ++ [newContainer (some p) n none]).set p
          { cp with sub := cp.sub ++ [st.containers.length] })[j]? with
        | some c => c.name == n
        | none => false)) = none := by
    rw [List.find?_eq_none]
    intro j hj
    have hjsub : j ∈ subOf st p := by
      rw [subOf_eq st p cp hcp]
      exact hj
    obtain ⟨hpj, hjlen⟩ := wf_sub_lt st hw p j hjsub
    have hne : p ≠ j := Nat.ne_of_lt hpj
    have hagree :
        ((st.containers ++ [newContainer (some p) n none]).set p
          { cp with sub := cp.sub ++ [st.containers.length] })[j]? = st.containers[j]? := by
      rw [List.getElem?_set_ne hne, List.getElem?_append, if_pos hjlen]
    simp only [hagree]
    have hold := List.find?_eq_none.mp (by
      unfold getByText at h
      rw [subOf_eq st p cp hcp] at h
      exact h) j hj
    simpa using hold
  rw [hnone, Option.none_or, List.find?_cons]
  have hlast :
      ((st.containers ++ [newContainer (some p) n none]).set p
        { cp with sub := cp.sub ++ [st.containers.length] })[st.containers.length]? =
      some (newContainer (some p) n none) := by
    rw [List.getElem?_set_ne (Nat.ne_of_lt hp), List.getElem?_concat_length]
  simp only [hlast]
  simp [newContainer]

/-- **C6.** `upsert` is idempotent: a second `upsert` with the same name
under the same parent returns the same container id and leaves the state
untouched (no second child is created). -/
theorem C6_upsert_idempotent (st : St) (p : Nat) (n : String)
    (hw : WfB st = true) (hp : p < st.containers.length) :
    (upsert (upsert st p n).1 p n).2 = (upsert st p n).2 ∧
    (upsert (upsert st p n).1 p n).1 = (upsert st p n).1 := by
  cases h : getByText st p n with
  | some j =>
      have e1 : upsert st p n = (st, j) := by unfold upsert; rw [h]
      rw [e1]
      constructor
      · show (upsert st p n).2 = j
        rw [e1]
      · show (upsert st p n).1 = st
        rw [e1]
  | none =>
      have e1 : upsert st p n =
          (modifyC { st with containers := st.containers ++ [newContainer (some p) n none] } p
            (fun c => { c with sub := c.sub ++ [st.containers.length] }),
           st.containers.length) := by
        unfold upsert
        rw [h]
      have h2 := getByText_after_create st p n hw hp h
      rw [e1]
      constructor
      · show (upsert _ p n).2 = st.containers.length
        unfold upsert
        rw [h2]
      · show (upsert _ p n).1 = _
        unfold upsert
        rw [h2]

theorem C6_upsert_idempotent_witness :
    WfB initSt = true ∧ 0 < initSt.containers.length ∧
    ((upsert (upsert initSt 0 "A").1 0 "A").2 = (upsert initSt 0 "A").2 ∧
     (upsert (upsert initSt 0 "A").1 0 "A").1 = (upsert initSt 0 "A").1) :=
  ⟨by decide, by decide, C6_upsert_idempotent initSt 0 "A" (by decide) (by decide)⟩

/-- `initSt` after `createContainerMappingBasedOnArray(["A"], "p")`:
container 1 (`"A"`) is a leaf carrying payload `"p"` and is registered
under `"p"`. -/
def exLeafReg1 : St := createContainerMapping initSt 0 ["A"] "p"

theorem mapGet_map_replace_self (k : String) (v : Nat) :
    ∀ m : List (String × Nat), (m.find? (fun e => e.1 == k)).isSome = true →
      mapGet (m.map (fun e => if e.1 == k then (k, v) else e)) k = some v := by
  intro m
  induction m with
  | nil => intro h; cases h
  | cons e m ih =>
      intro h
      by_cases he : (e.1 == k) = true
      · rw [List.map_cons, if_pos he]
        unfold mapGet
        simp [List.find?_cons]
      · have hke : (e.1 == k) = false := by simpa using he
        rw [List.map_cons, if_neg he]
        unfold mapGet
        simp only [List.find?_cons, hke] at h ⊢
        exact ih h

theorem mapGet_map_replace_other (k : String) (v : Nat) (q : String) (hq : q ≠ k) :
    ∀ m : List (String × Nat),
      mapGet (m.map (fun e => if e.1 == k then (k, v) else e)) q = mapGet m q := by
  intro m
  induction m with
  | nil => rfl
  | cons e m ih =>
      by_cases he : (e.1 == k) = true
      · have hek : e.1 = k := by simpa using he
        have hkq : (k == q) = false := by
          rw [beq_eq_false_iff_ne]
          exact fun h => hq h.symm
        rw [List.map_cons, if_pos he]
        unfold mapGet
        simp only [List.find?_cons, hkq, hek]
        exact ih
      · rw [List.map_cons, if_neg he]
        unfold mapGet
        by_cases heq : (e.1 == q) = true
        · simp only [List.find?_cons, heq]
        · have heq' : (e.1 == q) = false := by simpa using heq
          simp only [List.find?_cons, heq']
          exact ih

theorem mapGet_mapSet_self (m : List (String × Nat)) (k : String) (v : Nat) :
    mapGet (mapSet m k v) k = some v := by
  unfold mapSet
  by_cases h : (m.find? (fun e => e.1 == k)).isSome
  · rw [if_pos h]
    exact mapGet_map_replace_self k v m h
  · rw [if_neg h]
    unfold mapGet
    rw [List.find?_append]
    have hnone : m.find? (fun e => e.1 == k) = none := by
      cases hf : m.find? (fun e => e.1 == k)
      · rfl
      · rw [hf] at h; cases h rfl
    rw [hnone, Option.none_or]
    simp [List.find?_cons]

theorem mapGet_mapSet_other (m : List (String × Nat)) (k : String) (v : Nat)
    (q : String) (hq : q ≠ k) : mapGet (mapSet m k v) q = mapGet m q := by
  unfold mapSet
  by_cases h : (m.find? (fun e => e.1 == k)).isSome
  · rw [if_pos h]
    exact mapGet_map_replace_other k v q hq m
  · rw [if_neg h]
    unfold mapGet
    have hkq : ((k, v).1 == q) = false := by
      show (k == q) = false
      rw [beq_eq_false_iff_ne]
      exact fun h => hq h.symm
    rw [List.find?_append]
    simp only [List.find?_cons, hkq, List.find?_nil, Option.or_none]

/-- **C8, counterexample.** With `"p"` already registered to container 1,
`setAsLeaf` on container 2 with the same payload is not a no-op: it
re-points the registry to container 2 (last writer wins) instead of
keeping the original entry. -/
theorem C8_counterexample :
    (getLeafNodeByUserData (upsert exLeafReg1 0 "B").1 "p" = some 1) ∧
    (getLeafNodeByUserData (setAsLeaf (upsert exLeafReg1 0 "B").1 2 "p") "p" = some 2) ∧
    ((2 : Nat) ≠ 1) ∧
    (setAsLeaf (upsert exLeafReg1 0 "B").1 2 "p" ≠ (upsert exLeafReg1 0 "B").1) := by
  refine ⟨by decide, by decide, by decide, by decide⟩

/-- **C8, amended.** `setAsLeaf(p)` always marks the container as a leaf,
stores `p` as its data, and re-points the registry entry for `p` to this
container (last writer wins); other containers and other registry keys are
untouched, as is the edge collection. -/
theorem C8_amended_setAsLeaf_last_writer (st : St) (cid : Nat) (p : String)
    (hc : cid < st.containers.length) :
    isLeafOf (setAsLeaf st cid p) cid = true ∧
    dataOf (setAsLeaf st cid p) cid = p ∧
    getLeafNodeByUserData (setAsLeaf st cid p) p = some cid ∧
    (∀ q, q ≠ p → getLeafNodeByUserData (setAsLeaf st cid p) q =
      getLeafNodeByUserData st q) ∧
    (∀ j, j ≠ cid → (setAsLeaf st cid p).containers[j]? = st.containers[j]?) ∧
    (setAsLeaf st cid p).edges = st.edges := by
  obtain ⟨c, hcp⟩ : ∃ c, st.containers[cid]? = some c :=
    ⟨_, List.getElem?_eq_getElem hc⟩
  have hmod : modifyC st cid (fun c => { c with isLeaf := true, data := p }) =
      { st with containers := st.containers.set cid { c with isLeaf := true, data := p } } := by
    unfold modifyC
    rw [hcp]
  unfold setAsLeaf
  rw [hmod]
  refine ⟨?_, ?_, ?_, ?_, ?_, rfl⟩
  · unfold isLeafOf
    rw [show (({ st with containers := st.containers.set cid { c with isLeaf := true, data := p } } : St)).containers[cid]? = some { c with isLeaf := true, data := p } from List.getElem?_set_self hc]
    rfl
  · unfold dataOf
    rw [show (({ st with containers := st.containers.set cid { c with isLeaf := true, data := p } } : St)).containers[cid]? = some { c with isLeaf := true, data := p } from List.getElem?_set_self hc]
    rfl
  · exact mapGet_mapSet_self _ p cid
  · intro q hq
    exact mapGet_mapSet_other _ p cid q hq
  · intro j hj
    show (st.containers.set cid _)[j]? = _
    rw [List.getElem?_set_ne (fun h => hj h.symm)]

theorem C8_amended_setAsLeaf_last_writer_witness :
    (2 < ((upsert exLeafReg1 0 "B").1).containers.length) ∧
    getLeafNodeByUserData (setAsLeaf (upsert exLeafReg1 0 "B").1 2 "p") "p" = some 2 :=
  ⟨by decide,
    (C8_amended_setAsLeaf_last_writer (upsert exLeafReg1 0 "B").1 2 "p" (by decide)).2.2.1⟩

theorem charsLe_cons (x y : Char) (xs ys : List Char) :
    charsLe (x :: xs) (y :: ys) =
      if x == y then charsLe xs ys else decide (x.toNat < y.toNat) := rfl

theorem char_eq_of_toNat_eq {x y : Char} (h : x.toNat = y.toNat) : x = y :=
  Char.ext (UInt32.toNat.inj h)

theorem charsLe_total : ∀ a b, charsLe a b = true ∨ charsLe b a = true := by
  intro a
  induction a with
  | nil => intro b; left; rfl
  | cons x xs ih =>
      intro b
      cases b with
      | nil => right; rfl
      | cons y ys =>
          by_cases hxy : (x == y) = true
          · have hxye : x = y := by simpa using hxy
            have hyx : (y == x) = true := by simp [hxye]
            rcases ih ys with h | h
            · left; rw [charsLe_cons, if_pos hxy]; exact h
            · right; rw [charsLe_cons, if_pos hyx]; exact h
          · have hxy' : ¬ x = y := by
              intro h
              exact hxy (by simp [h])
            have hyx : ¬ (y == x) = true := by
              intro h
              exact hxy' (show y = x by simpa using h).symm
            have hne : x.toNat ≠ y.toNat := fun h => hxy' (char_eq_of_toNat_eq h)
            by_cases hlt : x.toNat < y.toNat
            · left
              rw [charsLe_cons, if_neg hxy]
              simpa using hlt
            · right
              rw [charsLe_cons, if_neg hyx]
              have : y.toNat < x.toNat := by omega
              simpa using this

theorem charsLe_trans : ∀ a b c,
    charsLe a b = true → charsLe b c = true → charsLe a c = true := by
  intro a
  induction a with
  | nil => intro b c _ _; rfl
  | cons x xs ih =>
      intro b c h1 h2
      cases b with
      | nil => exact absurd h1 (by simp [charsLe])
      | cons y ys =>
          cases c with
          | nil => exact absurd h2 (by simp [charsLe])
          | cons z zs =>
              rw [charsLe_cons] at h1 h2 ⊢
              by_cases hxy : (x == y) = true
              · have hxye : x = y := by simpa using hxy
                rw [if_pos hxy] at h1
                by_cases hyz : (y == z) = true
                · have hyze : y = z := by simpa using hyz
                  rw [if_pos hyz] at h2
                  rw [if_pos (show (x == z) = true by simp [hxye, hyze])]
                  exact ih ys zs h1 h2
                · rw [if_neg hyz] at h2
                  have hxz : ¬ (x == z) = true := by
                    rw [hxye]; exact hyz
                  rw [if_neg hxz, hxye]
                  exact h2
              · rw [if_neg hxy] at h1
                by_cases hyz : (y == z) = true
                · have hyze : y = z := by simpa using hyz
                  have hxz : ¬ (x == z) = true := by
                    rw [← hyze]; exact hxy
                  rw [if_neg hxz, ← hyze]
                  exact h1
                · rw [if_neg hyz] at h2
                  have hlt1 : x.toNat < y.toNat := by simpa using h1
                  have hlt2 : y.toNat < z.toNat := by simpa using h2
                  have hxz : ¬ (x == z) = true := by
                    intro hh
                    have : x = z := by simpa using hh
                    rw [this] at hlt1
                    omega
                  rw [if_neg hxz]
                  have : x.toNat < z.toNat := by omega
                  simpa using this

theorem charsLe_antisymm : ∀ a b,
    charsLe a b = true → charsLe b a = true → a = b := by
  intro a
  induction a with
  | nil =>
      intro b _ h2
      cases b with
      | nil => rfl
      | cons y ys => exact absurd h2 (by simp [charsLe])
  | cons x xs ih =>
      intro b h1 h2
      cases b with
      | nil => exact absurd h1 (by simp [charsLe])
      | cons y ys =>
          rw [charsLe_cons] at h1 h2
          by_cases hxy : (x == y) = true
          · have hxye : x = y := by simpa using hxy
            have hyx : (y == x) = true := by simp [hxye]
            rw [if_pos hxy] at h1
            rw [if_pos hyx] at h2
            rw [hxye, ih ys h1 h2]
          · have hyx : ¬ (y == x) = true := by
              intro hh
              exact hxy (by simp [(show y = x by simpa using hh).symm])
            rw [if_neg hxy] at h1
            rw [if_neg hyx] at h2
            have hlt1 : x.toNat < y.toNat := by simpa using h1
            have hlt2 : y.toNat < x.toNat := by simpa using h2
            omega

theorem strLeP_total (a b : String) : strLeP a b ∨ strLeP b a :=
  charsLe_total a.data b.data

theorem strLeP_trans (a b c : String) : strLeP a b → strLeP b c → strLeP a c :=
  charsLe_trans a.data b.data c.data

theorem strLe_antisymm (a b : String) (h1 : strLe a b = true) (h2 : strLe b a = true) :
    a = b := by
  cases a with
  | mk da =>
      cases b with
      | mk db =>
          have := charsLe_antisymm da db h1 h2
          rw [this]

instance : IsTotal String strLeP := ⟨strLeP_total⟩
instance : IsTrans String strLeP := ⟨strLeP_trans⟩

theorem pairLeP_total : ∀ a b : String × String, pairLeP a b ∨ pairLeP b a := by
  intro a b
  unfold pairLeP leNamePair
  by_cases h : (a.1 == b.1) = true
  · have he : a.1 = b.1 := by simpa using h
    have h' : (b.1 == a.1) = true := by simp [he]
    rw [if_pos h, if_pos h']
    exact strLeP_total a.2 b.2
  · have h' : ¬ (b.1 == a.1) = true := by
      intro hh
      exact h (by simp [(show b.1 = a.1 by simpa using hh).symm])
    rw [if_neg h, if_neg h']
    exact strLeP_total a.1 b.1

theorem pairLeP_trans : ∀ a b c : String × String,
    pairLeP a b → pairLeP b c → pairLeP a c := by
  intro a b c h1 h2
  unfold pairLeP leNamePair at h1 h2 ⊢
  by_cases hab : (a.1 == b.1) = true
  · have habe : a.1 = b.1 := by simpa using hab
    rw [if_pos hab] at h1
    by_cases hbc : (b.1 == c.1) = true
    · have hbce : b.1 = c.1 := by simpa using hbc
      rw [if_pos hbc] at h2
      rw [if_pos (show (a.1 == c.1) = true by simp [habe, hbce])]
      exact strLeP_trans a.2 b.2 c.2 h1 h2
    · rw [if_neg hbc] at h2
      have hac : ¬ (a.1 == c.1) = true := by
        rw [show a.1 = b.1 from habe]
        exact hbc
      rw [if_neg hac, show a.1 = b.1 from habe]
      exact h2
  · rw [if_neg hab] at h1
    by_cases hbc : (b.1 == c.1) = true
    · have hbce : b.1 = c.1 := by simpa using hbc
      have hac : ¬ (a.1 == c.1) = true := by
        rw [← hbce]
        exact hab
      rw [if_neg hac, ← hbce]
      exact h1
    · rw [if_neg hbc] at h2
      by_cases hac : (a.1 == c.1) = true
      · have hace : a.1 = c.1 := by simpa using hac
        have : b.1 = a.1 := by
          apply strLe_antisymm
          · rw [← hace] at h2
            exact h2
          · exact h1
        exact absurd (by simp [this.symm]) hab
      · rw [if_neg hac]
        exact strLeP_trans a.1 b.1 c.1 h1 h2

instance : IsTotal (String × String) pairLeP := ⟨pairLeP_total⟩
instance : IsTrans (String × String) pairLeP := ⟨pairLeP_trans⟩

theorem serialize_collect_mem (st : St) :
    ∀ (l : List Nat) (acc : List String) (s : String),
      (s ∈ l.foldl (fun acc n =>
        if stringIsEmpty (dataOf st n) then acc
        else if dataOf st n ∈ acc then acc else acc ++ [dataOf st n]) acc) ↔
      (s ∈ acc ∨ ∃ n ∈ l, dataOf st n = s ∧ stringIsEmpty s = false) := by
  intro l
  induction l with
  | nil => simp
  | cons n l ih =>
      intro acc s
      rw [List.foldl_cons]
      by_cases h1 : stringIsEmpty (dataOf st n) = true
      · rw [if_pos h1, ih]
        constructor
        · rintro (h | ⟨m, hm, rest⟩)
          · exact .inl h
          · exact .inr ⟨m, .tail _ hm, rest⟩
        · rintro (h | ⟨m, hm, hd, he⟩)
          · exact .inl h
          · rcases List.mem_cons.mp hm with rfl | hm'
            · rw [hd, he] at h1
              cases h1
            · exact .inr ⟨m, hm', hd, he⟩
      · have h1' : stringIsEmpty (dataOf st n) = false := by
          cases h : stringIsEmpty (dataOf st n)
          · rfl
          · exact absurd h h1
        rw [if_neg h1]
        by_cases h2 : dataOf st n ∈ acc
        · rw [if_pos h2, ih]
          constructor
          · rintro (h | ⟨m, hm, rest⟩)
            · exact .inl h
            · exact .inr ⟨m, .tail _ hm, rest⟩
          · rintro (h | ⟨m, hm, hd, he⟩)
            · exact .inl h
            · rcases List.mem_cons.mp hm with rfl | hm'
              · rw [← hd]
                exact .inl h2
              · exact .inr ⟨m, hm', hd, he⟩
        · rw [if_neg h2, ih]
          constructor
          · rintro (h | ⟨m, hm, rest⟩)
            · rcases List.mem_append.mp h with h | h
              · exact .inl h
              · have hs : s = dataOf st n := by simpa using h
                refine .inr ⟨n, .head _, hs.symm, ?_⟩
                rw [hs]
                exact h1'
            · exact .inr ⟨m, .tail _ hm, rest⟩
          · rintro (h | ⟨m, hm, hd, he⟩)
            · exact .inl (List.mem_append_left _ h)
            · rcases List.mem_cons.mp hm with rfl | hm'
              · refine .inl (List.mem_append_right _ ?_)
                rw [← hd]
                exact List.mem_singleton.mpr rfl
              · exact .inr ⟨m, hm', hd, he⟩

theorem serialize_collect_nodup (st : St) :
    ∀ (l : List Nat) (acc : List String), acc.Nodup →
      (l.foldl (fun acc n =>
        if stringIsEmpty (dataOf st n) then acc
        else if dataOf st n ∈ acc then acc else acc ++ [dataOf st n]) acc).Nodup := by
  intro l
  induction l with
  | nil => intro acc h; exact h
  | cons n l ih =>
      intro acc h
      rw [List.foldl_cons]
      by_cases h1 : stringIsEmpty (dataOf st n) = true
      · rw [if_pos h1]
        exact ih acc h
      · rw [if_neg h1]
        by_cases h2 : dataOf st n ∈ acc
        · rw [if_pos h2]
          exact ih acc h
        · rw [if_neg h2]
          refine ih _ ?_
          simp [List.nodup_append, h, h2]

/-- `initSt` after `createContainerMappingBasedOnArray(["A","B"], "A/B")`:
container 1 (`"A"`) is an intermediate folder with `data = "A"` (the
dirname), container 2 (`"B"`) is the leaf with payload `"A/B"`. -/
def exFolderData : St := createContainerMapping initSt 0 ["A", "B"] "A/B"

/-- **C7, counterexample.** The `"nodes"` array of `serialize()` contains
`"A"`, the non-empty `data` of the intermediate folder, although no leaf of
the graph carries payload `"A"` — so the array is not the set of leaf
payload strings. -/
theorem C7_counterexample :
    serializeNodes exFolderData = ["A", "A/B"] ∧
    ((getAllNodes exFolderData).all (fun n =>
      !(isLeafOf exFolderData n && (dataOf exFolderData n == "A"))) = true) := by
  refine ⟨by decide, by decide⟩

/-- **C7, amended.** `serialize()` produces a `"nodes"` array holding
exactly the distinct non-empty `data` strings of all tree nodes (leaf
payloads and folder directory strings alike), sorted with no duplicates,
and an `"edges"` array with one `(source.data, target.data)` pair per edge
sorted by source then target. -/
theorem C7_amended_serialize (st : St) :
    ((serialize st).1.Sorted strLeP ∧ (serialize st).1.Nodup ∧
      (∀ s, s ∈ (serialize st).1 ↔
        ((∃ n ∈ getAllNodes st, dataOf st n = s) ∧ stringIsEmpty s = false))) ∧
    ((serialize st).2.Perm
        (st.edges.map (fun e => (dataOf st e.source, dataOf st e.target))) ∧
      (serialize st).2.Sorted pairLeP) := by
  refine ⟨⟨?_, ?_, ?_⟩, ?_, ?_⟩
  · exact List.sorted_insertionSort strLeP _
  · exact (List.perm_insertionSort strLeP _).nodup_iff.mpr
      (serialize_collect_nodup st (getAllNodes st) [] List.nodup_nil)
  · intro s
    show s ∈ (serializeNodes st) ↔ _
    unfold serializeNodes
    rw [(List.perm_insertionSort strLeP _).mem_iff, serialize_collect_mem st]
    constructor
    · rintro (h | ⟨m, hm, hd, he⟩)
      · cases h
      · exact ⟨⟨m, hm, hd⟩, he⟩
    · rintro ⟨⟨m, hm, hd⟩, he⟩
      exact .inr ⟨m, hm, hd, he⟩
  · exact List.perm_insertionSort pairLeP _
  · exact List.sorted_insertionSort pairLeP _

/-- `m` is a strict descendant of `i` through `sub` links. -/
inductive Desc (st : St) : Nat → Nat → Prop where
  | head {i j : Nat} : j ∈ subOf st i → Desc st i j
  | step {i j k : Nat} : j ∈ subOf st i → Desc st j k → Desc st i k

theorem foldl_append_acc_mem (f : Nat → List Nat) (l : List Nat) (x : Nat) :
    ∀ acc, x ∈ acc → x ∈ l.foldl (fun acc j => acc ++ f j) acc := by
  induction l with
  | nil => intro acc h; exact h
  | cons j l ih =>
      intro acc h
      rw [List.foldl_cons]
      exact ih _ (List.mem_append_left _ h)

theorem foldl_append_mem (f : Nat → List Nat) (l : List Nat) (j x : Nat)
    (hj : j ∈ l) (hx : x ∈ f j) :
    ∀ acc, x ∈ l.foldl (fun acc j => acc ++ f j) acc := by
  induction l with
  | nil => cases hj
  | cons k l ih =>
      intro acc
      rw [List.foldl_cons]
      rcases List.mem_cons.mp hj with rfl | hj'
      · exact foldl_append_acc_mem f l x _ (List.mem_append_right _ hx)
      · exact ih hj' _

theorem foldl_append_nil (f : Nat → List Nat) (l : List Nat)
    (h : ∀ j ∈ l, f j = []) : ∀ acc, l.foldl (fun acc j => acc ++ f j) acc = acc := by
  induction l with
  | nil => intro acc; rfl
  | cons j l ih =>
      intro acc
      rw [List.foldl_cons, h j (.head _), List.append_nil]
      exact ih (fun k hk => h k (.tail _ hk)) acc

theorem flat_mem_of_leaf_desc (st : St) (hw : WfB st = true) :
    ∀ (fuel n m : Nat), n < st.containers.length →
      st.containers.length - n ≤ fuel →
      Desc st n m → isLeafOf st m = true →
      ∃ x, x ∈ flatNodes st fuel n := by
  intro fuel
  induction fuel with
  | zero =>
      intro n m hn hf _ _
      omega
  | succ fuel ih =>
      intro n m hn hf hd hm
      by_cases hl : isLeafOf st n = true
      · refine ⟨n, ?_⟩
        unfold flatNodes
        rw [if_pos hl]
        exact .head _
      · have hl' : isLeafOf st n = false := by
          cases h : isLeafOf st n
          · rfl
          · exact absurd h hl
        unfold flatNodes
        rw [if_neg (by rw [hl']; exact Bool.false_ne_true)]
        cases hd with
        | head hj =>
            obtain ⟨hnm, hmlen⟩ := wf_sub_lt st hw n m hj
            have hm1 : ∃ x, x ∈ flatNodes st fuel m := by
              cases fuel with
              | zero => omega
              | succ g =>
                  refine ⟨m, ?_⟩
                  unfold flatNodes
                  rw [if_pos hm]
                  exact .head _
            obtain ⟨x, hx⟩ := hm1
            exact ⟨x, foldl_append_mem _ _ m x hj hx []⟩
        | step hj hd' =>
            rename_i j
            obtain ⟨hnj, hjlen⟩ := wf_sub_lt st hw n j hj
            obtain ⟨x, hx⟩ := ih j m hjlen (by omega) hd' hm
            exact ⟨x, foldl_append_mem _ _ j x hj hx []⟩

theorem flat_nil_of_no_leaf_desc (st : St) (hw : WfB st = true) :
    ∀ (fuel n : Nat), n < st.containers.length →
      isLeafOf st n = false →
      (∀ m, Desc st n m → isLeafOf st m = false) →
      flatNodes st fuel n = [] := by
  intro fuel
  induction fuel with
  | zero => intro n _ _ _; rfl
  | succ fuel ih =>
      intro n hn hl hnd
      unfold flatNodes
      rw [if_neg (by rw [hl]; exact Bool.false_ne_true)]
      refine foldl_append_nil _ _ ?_ []
      intro j hj
      obtain ⟨hnj, hjlen⟩ := wf_sub_lt st hw n j hj
      exact ih j hjlen (hnd j (.head hj)) (fun m hm => hnd m (.step hj hm))

theorem fold_step_valid (len : Nat) (step : List Nat → Nat → List Nat)
    (hstep : ∀ (acc : List Nat) (j : Nat), j < len → (∀ x ∈ acc, x < len) →
      ∀ x ∈ step acc j, x < len) :
    ∀ (l : List Nat), (∀ j ∈ l, j < len) → ∀ (acc : List Nat),
      (∀ x ∈ acc, x < len) → ∀ x ∈ l.foldl step acc, x < len := by
  intro l
  induction l with
  | nil => intro _ acc hacc x hx; exact hacc x hx
  | cons j l ih =>
      intro hl acc hacc x hx
      rw [List.foldl_cons] at hx
      exact ih (fun k hk => hl k (.tail _ hk)) _
        (hstep acc j (hl j (.head _)) hacc) x hx

theorem cumulate_valid (st : St) (hw : WfB st = true) :
    ∀ (fuel : Nat) (acc : List Nat) (i : Nat), i < st.containers.length →
      (∀ x ∈ acc, x < st.containers.length) →
      ∀ x ∈ cumulateNode st fuel acc i, x < st.containers.length := by
  intro fuel
  induction fuel with
  | zero => intro acc i _ hacc x hx; exact hacc x hx
  | succ fuel ih =>
      intro acc i hi hacc
      unfold cumulateNode
      have hacc1 : ∀ x ∈ addUnique acc i, x < st.containers.length := by
        intro x hx
        rcases (mem_addUnique acc i x).mp hx with h | rfl
        · exact hacc x h
        · exact hi
      exact fold_step_valid st.containers.length _
        (fun acc j hj hacc x hx => ih acc j hj hacc x hx)
        (subOf st i) (fun j hj => (wf_sub_lt st hw i j hj).2)
        (addUnique acc i) hacc1

theorem getAllNodes_valid (st : St) (hw : WfB st = true) :
    ∀ n ∈ getAllNodes st, n < st.containers.length := by
  intro n hn
  have hlen : 0 < st.containers.length := by
    unfold WfB at hw
    rw [Bool.and_eq_true] at hw
    have h1 := hw.1
    cases hc : st.containers with
    | nil => rw [hc] at h1; cases h1
    | cons c l => simp
  exact cumulate_valid st hw _ [] 0 hlen (by intro x hx; cases hx) n hn

/-- **C4.** `getOrphanNodes` returns exactly the tree nodes that touch no
edge and — when they are not leaves — have no leaf descendant; a leaf with
no edges qualifies, a folder with a leaf descendant never does. -/
theorem C4_getOrphanNodes_spec (st : St) (hw : WfB st = true) (n : Nat) :
    n ∈ getOrphanNodes st ↔
      (n ∈ getAllNodes st ∧
       (∀ e ∈ st.edges, e.source ≠ n ∧ e.target ≠ n) ∧
       (isLeafOf st n = false → ¬ ∃ m, Desc st n m ∧ isLeafOf st m = true)) := by
  unfold getOrphanNodes
  rw [List.mem_filter]
  constructor
  · rintro ⟨hmem, hpred⟩
    have hn := getAllNodes_valid st hw n hmem
    by_cases hin : n ∈ getAllNodesInEdges st
    · rw [if_pos hin] at hpred
      cases hpred
    · refine ⟨hmem, ?_, ?_⟩
      · intro e he
        constructor
        · intro h
          exact hin ((mem_getAllNodesInEdges st n).mpr ⟨e, he, .inl h⟩)
        · intro h
          exact hin ((mem_getAllNodesInEdges st n).mpr ⟨e, he, .inr h⟩)
      · intro hleaf
        rw [if_neg hin, if_neg (by rw [hleaf]; exact Bool.false_ne_true)] at hpred
        have hflat : getFlatListOfNodes st n = [] := by
          have h0 : (getFlatListOfNodes st n).length = 0 := by simpa using hpred
          exact List.length_eq_zero.mp h0
        rintro ⟨m, hd, hm⟩
        obtain ⟨x, hx⟩ :=
          flat_mem_of_leaf_desc st hw (st.containers.length + 1) n m hn (by omega) hd hm
        unfold getFlatListOfNodes at hflat
        rw [hflat] at hx
        cases hx
  · rintro ⟨hmem, hedge, hdesc⟩
    have hn := getAllNodes_valid st hw n hmem
    have hin : n ∉ getAllNodesInEdges st := by
      intro h
      rcases (mem_getAllNodesInEdges st n).mp h with ⟨e, he, h' | h'⟩
      · exact (hedge e he).1 h'
      · exact (hedge e he).2 h'
    refine ⟨hmem, ?_⟩
    rw [if_neg hin]
    by_cases hl : isLeafOf st n = true
    · rw [if_pos hl]
    · have hl' : isLeafOf st n = false := by
        cases h : isLeafOf st n
        · rfl
        · exact absurd h hl
      rw [if_neg hl]
      have hnone : ∀ m, Desc st n m → isLeafOf st m = false := by
        intro m hm
        cases h : isLeafOf st m
        · rfl
        · exact absurd ⟨m, hm, h⟩ (hdesc hl')
      have hnil := flat_nil_of_no_leaf_desc st hw (st.containers.length + 1) n hn hl' hnone
      unfold getFlatListOfNodes
      rw [hnil]
      rfl

theorem C4_getOrphanNodes_spec_witness :
    WfB exLeafReg1 = true ∧
    (1 ∈ getOrphanNodes exLeafReg1 ↔
      (1 ∈ getAllNodes exLeafReg1 ∧
       (∀ e ∈ exLeafReg1.edges, e.source ≠ 1 ∧ e.target ≠ 1) ∧
       (isLeafOf exLeafReg1 1 = false →
         ¬ ∃ m, Desc exLeafReg1 1 m ∧ isLeafOf exLeafReg1 m = true))) :=
  ⟨by decide, C4_getOrphanNodes_spec exLeafReg1 (by decide) 1⟩

theorem modifyC_getElem (st : St) (i : Nat) (f : ContainerData → ContainerData) (j : Nat) :
    (modifyC st i f).containers[j]? =
      if i = j then (st.containers[j]?).map f else st.containers[j]? := by
  unfold modifyC
  cases hc : st.containers[i]? with
  | none =>
      by_cases hij : i = j
      · subst hij
        rw [if_pos rfl, hc]
        rfl
      · rw [if_neg hij]
  | some c =>
      show (st.containers.set i (f c))[j]? = _
      by_cases hij : i = j
      · subst hij
        rw [if_pos rfl, hc]
        have hi : i < st.containers.length := by
          by_contra h
          rw [List.getElem?_eq_none (by omega)] at hc
          cases hc
        rw [List.getElem?_set_self hi]
        rfl
      · rw [if_neg hij, List.getElem?_set_ne hij]

theorem modifyC_length (st : St) (i : Nat) (f : ContainerData → ContainerData) :
    (modifyC st i f).containers.length = st.containers.length := by
  unfold modifyC
  cases st.containers[i]? with
  | none => rfl
  | some c => exact List.length_set _ _ _

theorem modifyC_edges (st : St) (i : Nat) (f : ContainerData → ContainerData) :
    (modifyC st i f).edges = st.edges := by
  unfold modifyC
  cases st.containers[i]? <;> rfl

theorem modifyC_leafNodes (st : St) (i : Nat) (f : ContainerData → ContainerData) :
    (modifyC st i f).leafNodes = st.leafNodes := by
  unfold modifyC
  cases st.containers[i]? <;> rfl

theorem pushTarget_parentOf (st : St) (i t j : Nat) :
    parentOf (pushTarget st i t) j = parentOf st j := by
  unfold pushTarget parentOf
  rw [modifyC_getElem]
  by_cases hij : i = j
  · rw [if_pos hij]
    cases st.containers[j]? <;> rfl
  · rw [if_neg hij]

theorem pushTarget_subOf (st : St) (i t j : Nat) :
    subOf (pushTarget st i t) j = subOf st j := by
  unfold pushTarget subOf
  rw [modifyC_getElem]
  by_cases hij : i = j
  · rw [if_pos hij]
    cases st.containers[j]? <;> rfl
  · rw [if_neg hij]

theorem pushTarget_sourceNodesOf (st : St) (i t j : Nat) :
    sourceNodesOf (pushTarget st i t) j = sourceNodesOf st j := by
  unfold pushTarget sourceNodesOf
  rw [modifyC_getElem]
  by_cases hij : i = j
  · rw [if_pos hij]
    cases st.containers[j]? <;> rfl
  · rw [if_neg hij]

theorem pushTarget_targetNodesOf (st : St) (i t j : Nat) (hj : j < st.containers.length) :
    targetNodesOf (pushTarget st i t) j =
      if i = j then targetNodesOf st j ++ [t] else targetNodesOf st j := by
  unfold pushTarget targetNodesOf
  rw [modifyC_getElem]
  by_cases hij : i = j
  · rw [if_pos hij, if_pos hij, List.getElem?_eq_getElem hj]
    rfl
  · rw [if_neg hij, if_neg hij]

theorem pushTarget_length (st : St) (i t : Nat) :
    (pushTarget st i t).containers.length = st.containers.length :=
  modifyC_length st i _

theorem pushSource_parentOf (st : St) (i s j : Nat) :
    parentOf (pushSource st i s) j = parentOf st j := by
  unfold pushSource parentOf
  rw [modifyC_getElem]
  by_cases hij : i = j
  · rw [if_pos hij]
    cases st.containers[j]? <;> rfl
  · rw [if_neg hij]

theorem pushSource_subOf (st : St) (i s j : Nat) :
    subOf (pushSource st i s) j = subOf st j := by
  unfold pushSource subOf
  rw [modifyC_getElem]
  by_cases hij : i = j
  · rw [if_pos hij]
    cases st.containers[j]? <;> rfl
  · rw [if_neg hij]

theorem pushSource_targetNodesOf (st : St) (i s j : Nat) :
    targetNodesOf (pushSource st i s) j = targetNodesOf st j := by
  unfold pushSource targetNodesOf
  rw [modifyC_getElem]
  by_cases hij : i = j
  · rw [if_pos hij]
    cases st.containers[j]? <;> rfl
  · rw [if_neg hij]

theorem pushSource_sourceNodesOf (st : St) (i s j : Nat) (hj : j < st.containers.length) :
    sourceNodesOf (pushSource st i s) j =
      if i = j then sourceNodesOf st j ++ [s] else sourceNodesOf st j := by
  unfold pushSource sourceNodesOf
  rw [modifyC_getElem]
  by_cases hij : i = j
  · rw [if_pos hij, if_pos hij, List.getElem?_eq_getElem hj]
    rfl
  · rw [if_neg hij, if_neg hij]

theorem pushSource_length (st : St) (i s : Nat) :
    (pushSource st i s).containers.length = st.containers.length :=
  modifyC_length st i _

theorem WfB_of_like (st st' : St)
    (hlen : st'.containers.length = st.containers.length)
    (hpar : ∀ j, parentOf st' j = parentOf st j)
    (hsub : ∀ j, subOf st' j = subOf st j)
    (hw : WfB st = true) : WfB st' = true := by
  unfold WfB at hw ⊢
  rw [Bool.and_eq_true] at hw ⊢
  obtain ⟨h1, h2⟩ := hw
  rw [List.all_eq_true] at h2
  have hpos : 0 < st.containers.length := by
    cases hc : st.containers with
    | nil => rw [hc] at h1; cases h1
    | cons a l => simp
  constructor
  · cases hc : st'.containers with
    | nil =>
        exfalso
        have h0 : st'.containers.length = 0 := by rw [hc]; rfl
        omega
    | cons a l => simp
  · rw [List.all_eq_true]
    intro k hk
    rw [List.mem_range, hlen] at hk
    obtain ⟨c, hc⟩ : ∃ c, st.containers[k]? = some c :=
      ⟨_, List.getElem?_eq_getElem hk⟩
    obtain ⟨c', hc'⟩ : ∃ c', st'.containers[k]? = some c' :=
      ⟨_, List.getElem?_eq_getElem (by omega)⟩
    have hck : childOk st.containers.length k c = true := by
      have := h2 k (List.mem_range.mpr hk)
      rw [hc] at this
      exact this
    have hp : c'.parent = c.parent := by
      have hq := hpar k
      unfold parentOf at hq
      rw [hc, hc'] at hq
      simpa using hq
    have hs : c'.sub = c.sub := by
      have hq := hsub k
      unfold subOf at hq
      rw [hc, hc'] at hq
      simpa using hq
    rw [hc']
    show childOk st'.containers.length k c' = true
    rw [hlen]
    unfold childOk at hck ⊢
    rw [hp, hs]
    exact hck

theorem WfB_pushTarget (st : St) (i t : Nat) (hw : WfB st = true) :
    WfB (pushTarget st i t) = true :=
  WfB_of_like st _ (pushTarget_length st i t) (pushTarget_parentOf st i t)
    (pushTarget_subOf st i t) hw

theorem WfB_pushSource (st : St) (i s : Nat) (hw : WfB st = true) :
    WfB (pushSource st i s) = true :=
  WfB_of_like st _ (pushSource_length st i s) (pushSource_parentOf st i s)
    (pushSource_subOf st i s) hw

theorem ancChain_congr (st st' : St) (hpar : ∀ j, parentOf st' j = parentOf st j) :
    ∀ (fuel i : Nat), ancChain st' fuel i = ancChain st fuel i := by
  intro fuel
  induction fuel with
  | zero => intro i; rfl
  | succ fuel ih =>
      intro i
      unfold ancChain
      rw [hpar i]
      cases parentOf st i with
      | none => rfl
      | some p =>
          show p :: ancChain st' fuel p = p :: ancChain st fuel p
          rw [ih p]

theorem ancChain_lt (st : St) (hw : WfB st = true) :
    ∀ (fuel i : Nat), ∀ a ∈ ancChain st fuel i, a < i := by
  intro fuel
  induction fuel with
  | zero => intro i a ha; cases ha
  | succ fuel ih =>
      intro i a ha
      unfold ancChain at ha
      cases hp : parentOf st i with
      | none => rw [hp] at ha; cases ha
      | some p =>
          rw [hp] at ha
          have hpi : p < i := wf_parent_lt st hw i p hp
          rcases List.mem_cons.mp ha with rfl | ha'
          · exact hpi
          · exact lt_trans (ih p a ha') hpi

theorem ancChain_stable (st : St) (hw : WfB st = true) :
    ∀ (fuel1 fuel2 i : Nat), i < fuel1 → i < fuel2 →
      ancChain st fuel1 i = ancChain st fuel2 i := by
  intro fuel1
  induction fuel1 with
  | zero => intro fuel2 i h _; omega
  | succ f1 ih =>
      intro fuel2 i h1 h2
      cases fuel2 with
      | zero => omega
      | succ f2 =>
          unfold ancChain
          cases hp : parentOf st i with
          | none => rfl
          | some p =>
              have hpi : p < i := wf_parent_lt st hw i p hp
              show p :: ancChain st f1 p = p :: ancChain st f2 p
              rw [ih f2 p (by omega) (by omega)]

theorem ancestorsOf_none (st : St) (i : Nat) (hp : parentOf st i = none) :
    ancestorsOf st i = [] := by
  unfold ancestorsOf
  cases st.containers.length with
  | zero => rfl
  | succ m =>
      unfold ancChain
      rw [hp]

theorem ancChain_succ (st : St) (fuel i : Nat) :
    ancChain st (fuel + 1) i =
      match parentOf st i with
      | none => []
      | some p => p :: ancChain st fuel p := rfl

theorem ancestorsOf_step (st : St) (hw : WfB st = true) (i p : Nat)
    (hi : i < st.containers.length) (hp : parentOf st i = some p) :
    ancestorsOf st i = p :: ancestorsOf st p := by
  unfold ancestorsOf
  have hpi : p < i := wf_parent_lt st hw i p hp
  cases hlen : st.containers.length with
  | zero => omega
  | succ m =>
      nth_rewrite 1 [ancChain_succ]
      rw [hp]
      show p :: ancChain st m p = p :: ancChain st (m + 1) p
      rw [ancChain_stable st hw m (m + 1) p (by omega) (by omega)]

theorem rollupCalling_succ (st : St) (fuel i t : Nat) :
    rollupCalling st (fuel + 1) i t =
      match parentOf (pushTarget st i t) i with
      | none => pushTarget st i t
      | some p => rollupCalling (pushTarget st i t) fuel p t := rfl

theorem rollupCalled_succ (st : St) (fuel i s : Nat) :
    rollupCalled st (fuel + 1) i s =
      match parentOf (pushSource st i s) i with
      | none => pushSource st i s
      | some p => rollupCalled (pushSource st i s) fuel p s := rfl

theorem rollupCalling_parentOf (t : Nat) : ∀ (fuel : Nat) (st : St) (i j : Nat),
    parentOf (rollupCalling st fuel i t) j = parentOf st j := by
  intro fuel
  induction fuel with
  | zero => intro st i j; rfl
  | succ fuel ih =>
      intro st i j
      rw [rollupCalling_succ, pushTarget_parentOf st i t i]
      cases hp : parentOf st i with
      | none =>
          show parentOf (pushTarget st i t) j = parentOf st j
          exact pushTarget_parentOf st i t j
      | some p =>
          show parentOf (rollupCalling (pushTarget st i t) fuel p t) j = parentOf st j
          rw [ih (pushTarget st i t) p j, pushTarget_parentOf]

theorem rollupCalling_subOf (t : Nat) : ∀ (fuel : Nat) (st : St) (i j : Nat),
    subOf (rollupCalling st fuel i t) j = subOf st j := by
  intro fuel
  induction fuel with
  | zero => intro st i j; rfl
  | succ fuel ih =>
      intro st i j
      rw [rollupCalling_succ, pushTarget_parentOf st i t i]
      cases hp : parentOf st i with
      | none =>
          show subOf (pushTarget st i t) j = subOf st j
          exact pushTarget_subOf st i t j
      | some p =>
          show subOf (rollupCalling (pushTarget st i t) fuel p t) j = subOf st j
          rw [ih (pushTarget st i t) p j, pushTarget_subOf]

theorem rollupCalling_sourceNodesOf (t : Nat) : ∀ (fuel : Nat) (st : St) (i j : Nat),
    sourceNodesOf (rollupCalling st fuel i t) j = sourceNodesOf st j := by
  intro fuel
  induction fuel with
  | zero => intro st i j; rfl
  | succ fuel ih =>
      intro st i j
      rw [rollupCalling_succ, pushTarget_parentOf st i t i]
      cases hp : parentOf st i with
      | none =>
          show sourceNodesOf (pushTarget st i t) j = sourceNodesOf st j
          exact pushTarget_sourceNodesOf st i t j
      | some p =>
          show sourceNodesOf (rollupCalling (pushTarget st i t) fuel p t) j = sourceNodesOf st j
          rw [ih (pushTarget st i t) p j, pushTarget_sourceNodesOf]

theorem rollupCalling_length (t : Nat) : ∀ (fuel : Nat) (st : St) (i : Nat),
    (rollupCalling st fuel i t).containers.length = st.containers.length := by
  intro fuel
  induction fuel with
  | zero => intro st i; rfl
  | succ fuel ih =>
      intro st i
      rw [rollupCalling_succ, pushTarget_parentOf st i t i]
      cases hp : parentOf st i with
      | none =>
          show (pushTarget st i t).containers.length = st.containers.length
          exact pushTarget_length st i t
      | some p =>
          show (rollupCalling (pushTarget st i t) fuel p t).containers.length = st.containers.length
          rw [ih (pushTarget st i t) p, pushTarget_length]

theorem rollupCalling_edges (t : Nat) : ∀ (fuel : Nat) (st : St) (i : Nat),
    (rollupCalling st fuel i t).edges = st.edges := by
  intro fuel
  induction fuel with
  | zero => intro st i; rfl
  | succ fuel ih =>
      intro st i
      rw [rollupCalling_succ, pushTarget_parentOf st i t i]
      cases hp : parentOf st i with
      | none =>
          show (pushTarget st i t).edges = st.edges
          exact modifyC_edges st i _
      | some p =>
          show (rollupCalling (pushTarget st i t) fuel p t).edges = st.edges
          rw [ih (pushTarget st i t) p]
          exact modifyC_edges st i _

theorem rollupCalled_parentOf (s : Nat) : ∀ (fuel : Nat) (st : St) (i j : Nat),
    parentOf (rollupCalled st fuel i s) j = parentOf st j := by
  intro fuel
  induction fuel with
  | zero => intro st i j; rfl
  | succ fuel ih =>
      intro st i j
      rw [rollupCalled_succ, pushSource_parentOf st i s i]
      cases hp : parentOf st i with
      | none =>
          show parentOf (pushSource st i s) j = parentOf st j
          exact pushSource_parentOf st i s j
      | some p =>
          show parentOf (rollupCalled (pushSource st i s) fuel p s) j = parentOf st j
          rw [ih (pushSource st i s) p j, pushSource_parentOf]

theorem rollupCalled_subOf (s : Nat) : ∀ (fuel : Nat) (st : St) (i j : Nat),
    subOf (rollupCalled st fuel i s) j = subOf st j := by
  intro fuel
  induction fuel with
  | zero => intro st i j; rfl
  | succ fuel ih =>
      intro st i j
      rw [rollupCalled_succ, pushSource_parentOf st i s i]
      cases hp : parentOf st i with
      | none =>
          show subOf (pushSource st i s) j = subOf st j
          exact pushSource_subOf st i s j
      | some p =>
          show subOf (rollupCalled (pushSource st i s) fuel p s) j = subOf st j
          rw [ih (pushSource st i s) p j, pushSource_subOf]

theorem rollupCalled_targetNodesOf (s : Nat) : ∀ (fuel : Nat) (st : St) (i j : Nat),
    targetNodesOf (rollupCalled st fuel i s) j = targetNodesOf st j := by
  intro fuel
  induction fuel with
  | zero => intro st i j; rfl
  | succ fuel ih =>
      intro st i j
      rw [rollupCalled_succ, pushSource_parentOf st i s i]
      cases hp : parentOf st i with
      | none =>
          show targetNodesOf (pushSource st i s) j = targetNodesOf st j
          exact pushSource_targetNodesOf st i s j
      | some p =>
          show targetNodesOf (rollupCalled (pushSource st i s) fuel p s) j = targetNodesOf st j
          rw [ih (pushSource st i s) p j, pushSource_targetNodesOf]

theorem rollupCalled_length (s : Nat) : ∀ (fuel : Nat) (st : St) (i : Nat),
    (rollupCalled st fuel i s).containers.length = st.containers.length := by
  intro fuel
  induction fuel with
  | zero => intro st i; rfl
  | succ fuel ih =>
      intro st i
      rw [rollupCalled_succ, pushSource_parentOf st i s i]
      cases hp : parentOf st i with
      | none =>
          show (pushSource st i s).containers.length = st.containers.length
          exact pushSource_length st i s
      | some p =>
          show (rollupCalled (pushSource st i s) fuel p s).containers.length = st.containers.length
          rw [ih (pushSource st i s) p, pushSource_length]

theorem rollupCalled_edges (s : Nat) : ∀ (fuel : Nat) (st : St) (i : Nat),
    (rollupCalled st fuel i s).edges = st.edges := by
  intro fuel
  induction fuel with
  | zero => intro st i; rfl
  | succ fuel ih =>
      intro st i
      rw [rollupCalled_succ, pushSource_parentOf st i s i]
      cases hp : parentOf st i with
      | none =>
          show (pushSource st i s).edges = st.edges
          exact modifyC_edges st i _
      | some p =>
          show (rollupCalled (pushSource st i s) fuel p s).edges = st.edges
          rw [ih (pushSource st i s) p]
          exact modifyC_edges st i _

theorem rollupCalling_targetNodes (t : Nat) :
    ∀ (fuel : Nat) (st : St), WfB st = true →
      ∀ i, i < st.containers.length → i < fuel →
      ∀ j, j < st.containers.length →
      targetNodesOf (rollupCalling st fuel i t) j =
        (if j = i ∨ j ∈ ancestorsOf st i then targetNodesOf st j ++ [t]
         else targetNodesOf st j) := by
  intro fuel
  induction fuel with
  | zero => intro st hw i hi hif; omega
  | succ fuel ih =>
      intro st hw i hi hif j hj
      rw [rollupCalling_succ, pushTarget_parentOf st i t i]
      cases hp : parentOf st i with
      | none =>
          show targetNodesOf (pushTarget st i t) j = _
          rw [pushTarget_targetNodesOf st i t j hj, ancestorsOf_none st i hp]
          by_cases hji : j = i
          · rw [if_pos (show i = j from hji.symm), if_pos (Or.inl hji)]
          · rw [if_neg (show ¬ i = j from fun h => hji h.symm),
                if_neg (show ¬ (j = i ∨ j ∈ ([] : List Nat)) from by
                  rintro (h | h)
                  · exact hji h
                  · cases h)]
      | some p =>
          show targetNodesOf (rollupCalling (pushTarget st i t) fuel p t) j = _
          have hpi : p < i := wf_parent_lt st hw i p hp
          have hw1 : WfB (pushTarget st i t) = true := WfB_pushTarget st i t hw
          rw [ih (pushTarget st i t) hw1 p
                (by rw [pushTarget_length]; omega) (by omega) j
                (by rw [pushTarget_length]; exact hj)]
          have hanc1 : ancestorsOf (pushTarget st i t) p = ancestorsOf st p := by
            unfold ancestorsOf
            rw [pushTarget_length]
            exact ancChain_congr st (pushTarget st i t) (pushTarget_parentOf st i t) _ p
          rw [hanc1, pushTarget_targetNodesOf st i t j hj,
              ancestorsOf_step st hw i p hi hp]
          have hchain_lt : ∀ a ∈ ancestorsOf st p, a < p :=
            fun a ha => ancChain_lt st hw _ p a ha
          by_cases hji : j = i
          · have h1 : ¬ (j = p ∨ j ∈ ancestorsOf st p) := by
              rintro (h | h)
              · omega
              · have := hchain_lt j h
                omega
            rw [if_neg h1, if_pos (show i = j from hji.symm), if_pos (Or.inl hji)]
          · rw [if_neg (show ¬ i = j from fun h => hji h.symm)]
            by_cases hmem : j = p ∨ j ∈ ancestorsOf st p
            · rw [if_pos hmem]
              rw [if_pos (show j = i ∨ j ∈ p :: ancestorsOf st p from Or.inr (by
                rcases hmem with rfl | h
                · exact .head _
                · exact .tail _ h))]
            · rw [if_neg hmem]
              rw [if_neg (show ¬ (j = i ∨ j ∈ p :: ancestorsOf st p) from by
                rintro (h | h)
                · exact hji h
                · rcases List.mem_cons.mp h with rfl | h2
                  · exact hmem (Or.inl rfl)
                  · exact hmem (Or.inr h2))]

theorem rollupCalled_sourceNodes (s : Nat) :
    ∀ (fuel : Nat) (st : St), WfB st = true →
      ∀ i, i < st.containers.length → i < fuel →
      ∀ j, j < st.containers.length →
      sourceNodesOf (rollupCalled st fuel i s) j =
        (if j = i ∨ j ∈ ancestorsOf st i then sourceNodesOf st j ++ [s]
         else sourceNodesOf st j) := by
  intro fuel
  induction fuel with
  | zero => intro st hw i hi hif; omega
  | succ fuel ih =>
      intro st hw i hi hif j hj
      rw [rollupCalled_succ, pushSource_parentOf st i s i]
      cases hp : parentOf st i with
      | none =>
          show sourceNodesOf (pushSource st i s) j = _
          rw [pushSource_sourceNodesOf st i s j hj, ancestorsOf_none st i hp]
          by_cases hji : j = i
          · rw [if_pos (show i = j from hji.symm), if_pos (Or.inl hji)]
          · rw [if_neg (show ¬ i = j from fun h => hji h.symm),
                if_neg (show ¬ (j = i ∨ j ∈ ([] : List Nat)) from by
                  rintro (h | h)
                  · exact hji h
                  · cases h)]
      | some p =>
          show sourceNodesOf (rollupCalled (pushSource st i s) fuel p s) j = _
          have hpi : p < i := wf_parent_lt st hw i p hp
          have hw1 : WfB (pushSource st i s) = true := WfB_pushSource st i s hw
          rw [ih (pushSource st i s) hw1 p
                (by rw [pushSource_length]; omega) (by omega) j
                (by rw [pushSource_length]; exact hj)]
          have hanc1 : ancestorsOf (pushSource st i s) p = ancestorsOf st p := by
            unfold ancestorsOf
            rw [pushSource_length]
            exact ancChain_congr st (pushSource st i s) (pushSource_parentOf st i s) _ p
          rw [hanc1, pushSource_sourceNodesOf st i s j hj,
              ancestorsOf_step st hw i p hi hp]
          have hchain_lt : ∀ a ∈ ancestorsOf st p, a < p :=
            fun a ha => ancChain_lt st hw _ p a ha
          by_cases hji : j = i
          · have h1 : ¬ (j = p ∨ j ∈ ancestorsOf st p) := by
              rintro (h | h)
              · omega
              · have := hchain_lt j h
                omega
            rw [if_neg h1, if_pos (show i = j from hji.symm), if_pos (Or.inl hji)]
          · rw [if_neg (show ¬ i = j from fun h => hji h.symm)]
            by_cases hmem : j = p ∨ j ∈ ancestorsOf st p
            · rw [if_pos hmem]
              rw [if_pos (show j = i ∨ j ∈ p :: ancestorsOf st p from Or.inr (by
                rcases hmem with rfl | h
                · exact .head _
                · exact .tail _ h))]
            · rw [if_neg hmem]
              rw [if_neg (show ¬ (j = i ∨ j ∈ p :: ancestorsOf st p) from by
                rintro (h | h)
                · exact hji h
                · rcases List.mem_cons.mp h with rfl | h2
                  · exact hmem (Or.inl rfl)
                  · exact hmem (Or.inr h2))]

theorem edgesUpsert_containers (st : St) (s t : Nat) :
    (edgesUpsert st s t).containers = st.containers := by
  unfold edgesUpsert
  cases getEdge st s t <;> rfl

theorem edgesUpsert_targetNodesOf (st : St) (s t j : Nat) :
    targetNodesOf (edgesUpsert st s t) j = targetNodesOf st j := by
  unfold targetNodesOf
  rw [edgesUpsert_containers]

theorem edgesUpsert_sourceNodesOf (st : St) (s t j : Nat) :
    sourceNodesOf (edgesUpsert st s t) j = sourceNodesOf st j := by
  unfold sourceNodesOf
  rw [edgesUpsert_containers]

theorem WfB_rollupCalling (st : St) (fuel i t : Nat) (hw : WfB st = true) :
    WfB (rollupCalling st fuel i t) = true :=
  WfB_of_like st _ (rollupCalling_length t fuel st i)
    (rollupCalling_parentOf t fuel st i) (rollupCalling_subOf t fuel st i) hw

theorem ancestorsOf_rollupCalling (st : St) (fuel i t j : Nat) :
    ancestorsOf (rollupCalling st fuel i t) j = ancestorsOf st j := by
  unfold ancestorsOf
  rw [rollupCalling_length]
  exact ancChain_congr st _ (rollupCalling_parentOf t fuel st i) _ j

/-- The two-sided rollup of `Graph.upsertEdge`, named for the claim
statements: `upsertEdge st s t` after the container updates. -/
theorem upsertEdge_targetNodes (st : St) (hw : WfB st = true) (s t : Nat)
    (hs : s < st.containers.length) (a : Nat) (ha : a < st.containers.length) :
    targetNodesOf (upsertEdge st s t) a =
      (if a = s ∨ a ∈ ancestorsOf st s then targetNodesOf st a ++ [t]
       else targetNodesOf st a) := by
  unfold upsertEdge
  rw [edgesUpsert_targetNodesOf, rollupCalled_targetNodesOf,
      rollupCalling_targetNodes t st.containers.length st hw s hs
        (by omega) a ha]

theorem upsertEdge_sourceNodes (st : St) (hw : WfB st = true) (s t : Nat)
    (ht : t < st.containers.length) (b : Nat) (hb : b < st.containers.length) :
    sourceNodesOf (upsertEdge st s t) b =
      (if b = t ∨ b ∈ ancestorsOf st t then sourceNodesOf st b ++ [s]
       else sourceNodesOf st b) := by
  unfold upsertEdge
  have hlen1 : (rollupCalling st st.containers.length s t).containers.length =
      st.containers.length := rollupCalling_length t _ st s
  rw [edgesUpsert_sourceNodesOf,
      rollupCalled_sourceNodes s
        (rollupCalling st st.containers.length s t).containers.length
        (rollupCalling st st.containers.length s t)
        (WfB_rollupCalling st _ s t hw) t (by omega) (by omega) b (by omega),
      ancestorsOf_rollupCalling, rollupCalling_sourceNodesOf]

theorem upsertEdge_edges_of_existing (st : St) (s t : Nat)
    (hany : (st.edges.any (fun e => e.source == s && e.target == t)) = true) :
    (upsertEdge st s t).edges = st.edges := by
  unfold upsertEdge
  have hedges : (rollupCalled (rollupCalling st st.containers.length s t)
      (rollupCalling st st.containers.length s t).containers.length t s).edges = st.edges := by
    rw [rollupCalled_edges, rollupCalling_edges]
  unfold edgesUpsert
  unfold getEdge
  rw [hedges]
  rw [List.any_eq_true] at hany
  obtain ⟨e, he, hpe⟩ := hany
  cases hfind : st.edges.find? (fun e => e.source == s && e.target == t) with
  | none =>
      exfalso
      have := List.find?_eq_none.mp hfind e he
      rw [hpe] at this
      exact this rfl
  | some e0 => exact hedges

theorem anc_valid (st : St) (hw : WfB st = true) (i : Nat)
    (hi : i < st.containers.length) (a : Nat) (ha : a ∈ ancestorsOf st i) :
    a < st.containers.length :=
  lt_trans (ancChain_lt st hw _ i a ha) hi

/-- **C5.** After `upsertEdge(s, t)`, `t` is in the `targetNodes` of `s`
and of every ancestor of `s` up to the root, and `s` is in the
`sourceNodes` of `t` and of every ancestor of `t`. -/
theorem C5_upsertEdge_rollup (st : St) (hw : WfB st = true) (s t : Nat)
    (hs : s < st.containers.length) (ht : t < st.containers.length) :
    (∀ a, (a = s ∨ a ∈ ancestorsOf st s) →
      t ∈ targetNodesOf (upsertEdge st s t) a) ∧
    (∀ b, (b = t ∨ b ∈ ancestorsOf st t) →
      s ∈ sourceNodesOf (upsertEdge st s t) b) := by
  constructor
  · intro a ha
    have hav : a < st.containers.length := by
      rcases ha with rfl | h
      · exact hs
      · exact anc_valid st hw s hs a h
    rw [upsertEdge_targetNodes st hw s t hs a hav, if_pos ha]
    exact List.mem_append_right _ (List.mem_singleton.mpr rfl)
  · intro b hb
    have hbv : b < st.containers.length := by
      rcases hb with rfl | h
      · exact ht
      · exact anc_valid st hw t ht b h
    rw [upsertEdge_sourceNodes st hw s t ht b hbv, if_pos hb]
    exact List.mem_append_right _ (List.mem_singleton.mpr rfl)

theorem C5_upsertEdge_rollup_witness :
    WfB exTwoNodes = true ∧
    2 ∈ targetNodesOf (upsertEdge exTwoNodes 1 2) 0 ∧
    1 ∈ sourceNodesOf (upsertEdge exTwoNodes 1 2) 0 :=
  ⟨by decide,
   (C5_upsertEdge_rollup exTwoNodes (by decide) 1 2 (by decide) (by decide)).1 0
     (Or.inr (by decide)),
   (C5_upsertEdge_rollup exTwoNodes (by decide) 1 2 (by decide) (by decide)).2 0
     (Or.inr (by decide))⟩

/-- **C10.** Every `upsertEdge(s, t)` call — repeated calls for an existing
pair included — appends `t` once more to the `targetNodes` of `s` and each
of its ancestors and `s` once more to the `sourceNodes` of `t` and each of
its ancestors (so the rolled-up lists accumulate duplicates), while the
edge collection itself stays de-duplicated: when the ordered pair already
exists, the edge list is unchanged. -/
theorem C10_upsertEdge_duplicates (st : St) (hw : WfB st = true) (s t : Nat)
    (hs : s < st.containers.length) (ht : t < st.containers.length) :
    (∀ a, (a = s ∨ a ∈ ancestorsOf st s) →
      targetNodesOf (upsertEdge st s t) a = targetNodesOf st a ++ [t]) ∧
    (∀ b, (b = t ∨ b ∈ ancestorsOf st t) →
      sourceNodesOf (upsertEdge st s t) b = sourceNodesOf st b ++ [s]) ∧
    ((st.edges.any (fun e => e.source == s && e.target == t)) = true →
      (upsertEdge st s t).edges = st.edges) := by
  refine ⟨?_, ?_, upsertEdge_edges_of_existing st s t⟩
  · intro a ha
    have hav : a < st.containers.length := by
      rcases ha with rfl | h
      · exact hs
      · exact anc_valid st hw s hs a h
    rw [upsertEdge_targetNodes st hw s t hs a hav, if_pos ha]
  · intro b hb
    have hbv : b < st.containers.length := by
      rcases hb with rfl | h
      · exact ht
      · exact anc_valid st hw t ht b h
    rw [upsertEdge_sourceNodes st hw s t ht b hbv, if_pos hb]

theorem C10_upsertEdge_duplicates_witness :
    WfB exTwoCycle = true ∧
    targetNodesOf (upsertEdge exTwoCycle 1 2) 1 = targetNodesOf exTwoCycle 1 ++ [2] ∧
    (upsertEdge exTwoCycle 1 2).edges = exTwoCycle.edges :=
  ⟨by decide,
   (C10_upsertEdge_duplicates exTwoCycle (by decide) 1 2 (by decide) (by decide)).1 1
     (Or.inl rfl),
   (C10_upsertEdge_duplicates exTwoCycle (by decide) 1 2 (by decide) (by decide)).2.2
     (by decide)⟩

/-- **C9, counterexample.** On path `"a/b"`: the `util/strings.js` matcher
lets `*` cross the separator (pattern `"a*b"` excludes it) although the
claim's rules forbid that; and pattern `"a?b"` matches under the claim's
rules (`?` = exactly one character) but under neither embedded matcher,
whose `?` is `[^/]`.  On the path `"a\nb"` the two copies split the other
way: glad.js's `[^/]*` matches the newline but strings.js's JS `.`
(`.*`) does not. -/
theorem C9_counterexample :
    (matchesClaimRules "a/b" ["a*b"] = false ∧
     matchesExcludePatternStrings "a/b" ["a*b"] = true) ∧
    (matchesClaimRules "a/b" ["a?b"] = true ∧
     matchesExcludePatternGlad "a/b" ["a?b"] = false ∧
     matchesExcludePatternStrings "a/b" ["a?b"] = false) ∧
    (matchesExcludePatternGlad "a\nb" ["a*b"] = true ∧
     matchesExcludePatternStrings "a\nb" ["a*b"] = false) := by
  refine ⟨⟨by decide, by decide⟩, ⟨by decide, by decide, by decide⟩,
    by decide, by decide⟩

theorem tokMatch_mono : ∀ (fuel : Nat) (ts : List GTok) (s : List Char),
    (∀ c ∈ s, jsDot c = true) →
    tokMatch false fuel ts s = true → tokMatch true fuel ts s = true := by
  intro fuel
  induction fuel with
  | zero =>
      intro ts s _ h
      simp [tokMatch] at h
  | succ fuel ih =>
      intro ts s hs h
      cases ts with
      | nil =>
          cases s with
          | nil => rfl
          | cons x xs => simp [tokMatch] at h
      | cons tok ts =>
          cases tok with
          | lit c =>
              cases s with
              | nil => simp [tokMatch] at h
              | cons x xs =>
                  simp only [tokMatch, Bool.and_eq_true] at h ⊢
                  exact ⟨h.1, ih ts xs (fun c hc => hs c (.tail _ hc)) h.2⟩
          | qmark =>
              cases s with
              | nil => simp [tokMatch] at h
              | cons x xs =>
                  simp only [tokMatch, Bool.and_eq_true] at h ⊢
                  exact ⟨h.1, ih ts xs (fun c hc => hs c (.tail _ hc)) h.2⟩
          | anyChars =>
              cases s with
              | nil =>
                  simp only [tokMatch] at h ⊢
                  exact ih ts [] (fun c hc => by cases hc) h
              | cons x xs =>
                  simp only [tokMatch, Bool.or_eq_true, Bool.and_eq_true] at h ⊢
                  rcases h with h | ⟨h1, h2⟩
                  · exact .inl (ih ts (x :: xs) hs h)
                  · exact .inr ⟨h1,
                      ih (.anyChars :: ts) xs (fun c hc => hs c (.tail _ hc)) h2⟩
          | star =>
              cases s with
              | nil =>
                  simp only [tokMatch] at h ⊢
                  exact ih ts [] (fun c hc => by cases hc) h
              | cons x xs =>
                  simp only [tokMatch, Bool.or_eq_true, Bool.and_eq_true] at h ⊢
                  rcases h with h | ⟨h1, h2⟩
                  · exact .inl (ih ts (x :: xs) hs h)
                  · refine .inr ⟨?_, ih (.star :: ts) xs
                      (fun c hc => hs c (.tail _ hc)) h2⟩
                    show jsDot x = true
                    exact hs x (.head _)
          | anySeg =>
              simp only [tokMatch, Bool.or_eq_true] at h ⊢
              rcases h with h | h
              · exact .inl (ih ts s hs h)
              · exact .inr (ih (.anySegForce :: ts) s hs h)
          | anySegForce =>
              cases s with
              | nil => simp [tokMatch] at h
              | cons x xs =>
                  simp only [tokMatch, Bool.or_eq_true, Bool.and_eq_true] at h ⊢
                  rcases h with ⟨h1, h2⟩ | ⟨h1, h2⟩
                  · exact .inl ⟨h1, ih ts xs (fun c hc => hs c (.tail _ hc)) h2⟩
                  · exact .inr ⟨h1,
                      ih (.anySegForce :: ts) xs (fun c hc => hs c (.tail _ hc)) h2⟩

/-- **C9, amended.** Both exclude-matcher copies anchor the whole path:
a path is excluded exactly when the entire path matches some pattern of
the list.  They compile patterns identically except for `*`: the glad.js
copy confines `*` to one segment (`[^/]*`, line terminators included)
while the `util/strings.js` copy lets it cross `/` but never a line
terminator (JS `.*`); on paths free of line terminators — the shape of
real relative file paths — everything the glad.js matcher excludes, the
strings.js matcher excludes as well.  In both, `?` matches exactly one
character other than `/`. -/
theorem C9_amended_matchers (path : String) (pats : List String) :
    ((∀ c ∈ path.data, jsDot c = true) →
      matchesExcludePatternGlad path pats = true →
      matchesExcludePatternStrings path pats = true) ∧
    (matchesExcludePatternStrings path pats = true ↔
      ∃ p ∈ pats, gmatch true (compilePattern p) path.data = true) ∧
    (matchesExcludePatternGlad path pats = true ↔
      ∃ p ∈ pats, gmatch false (compilePattern p) path.data = true) := by
  refine ⟨?_, ?_, ?_⟩
  · intro hnl h
    unfold matchesExcludePatternGlad at h
    unfold matchesExcludePatternStrings
    rw [List.any_eq_true] at h ⊢
    obtain ⟨p, hp, hm⟩ := h
    refine ⟨p, hp, ?_⟩
    unfold gmatch at hm ⊢
    exact tokMatch_mono _ _ _ hnl hm
  · unfold matchesExcludePatternStrings
    rw [List.any_eq_true]
  · unfold matchesExcludePatternGlad
    rw [List.any_eq_true]

theorem C9_amended_matchers_witness :
    (∀ c ∈ ("x/y/foo.t" : String).data, jsDot c = true) ∧
    matchesExcludePatternGlad "x/y/foo.t" ["**/*.t"] = true ∧
    matchesExcludePatternStrings "x/y/foo.t" ["**/*.t"] = true :=
  ⟨by decide, by decide,
    (C9_amended_matchers "x/y/foo.t" ["**/*.t"]).1 (by decide) (by decide)⟩
